import Mathlib

/-! # FuseCheck: fuse table, fuse counter, version parser, database loader, detection

A shallow embedding of `source/main.c` and theorems about it.

Conventions of the embedding.

* A C string is the list of its characters; `NUL` is the terminator. A read `*p`
  at the end of the list yields `NUL` (`deref`). Where the source reads a
  `char` buffer as a string, the string is the part before the first `NUL`
  (`c_str`).
* `u8` values are natural numbers; a narrowing cast `(u8)x` is `to_u8`.
* `int` is a 32-bit two's complement integer: every `int` operation of the
  source is followed by `int_wrap`.
* The arrays `nca_db[0 .. nca_db_count)` and `fuse_db[0 .. fuse_db_count)` are
  lists; the counts are the lengths of the lists.
* The database file is the sequence of line buffers that `f_gets` returns, or
  `none` when `f_open` fails.
-/

namespace FuseCheck

/-! ## Characters, C strings and machine integers -/

/-- The string terminator `'\0'`. -/
def NUL : Char := Char.ofNat 0

/-- The read `*p`: the first character, or the terminator at the end. -/
def deref (p : List Char) : Char := p.headD NUL

/-- The string held by a character buffer: what precedes the first terminator. -/
def c_str (buf : List Char) : List Char := buf.takeWhile (fun c => c != NUL)

/-- The C library `strlen`. -/
def strlen (s : List Char) : Nat := (c_str s).length

/-- The C library `isspace` in the "C" locale: space, `\t`, `\n`, `\v`, `\f`, `\r`. -/
def isspace (c : Char) : Bool :=
  c == ' ' || (decide (9 ≤ c.toNat) && decide (c.toNat ≤ 13))

/-- The test `*p >= '0' && *p <= '9'`. -/
def is_digit (c : Char) : Bool :=
  decide (c.toNat ≥ '0'.toNat) && decide (c.toNat ≤ '9'.toNat)

/-- Reduction of a mathematical integer to a 32-bit two's complement `int`. -/
def int_wrap (x : Int) : Int := Int.bmod x 4294967296

/-- The narrowing cast `(u8)x` of an `int`. -/
def to_u8 (x : Int) : Nat := (x % 256).toNat

/-- The test `strcmp(a, b) == 0`. -/
def strcmp_eq (a b : List Char) : Bool := c_str a == c_str b

/-- The test `strncmp(a, b, n) == 0`. -/
def strncmp_eq (a b : List Char) (n : Nat) : Bool := (c_str a).take n == (c_str b).take n

/-- The call `strncpy(dst, src, n)` into a zero-filled `dst` of `n + 1` bytes:
the string left in `dst`. -/
def strncpy (src : List Char) (n : Nat) : List Char := (c_str src).take n

/-! ## The built-in fuse table and `get_required_fuses` -/

/-- One row of the firmware-to-fuse table. -/
structure fw_fuse_map_t where
  major_min : Nat
  minor_min : Nat
  major_max : Nat
  minor_max : Nat
  fuses_required : Nat
deriving DecidableEq, Repr

/-- The table `fuse_map`, in source order. -/
def fuse_map : List fw_fuse_map_t :=
  [ ⟨1, 0, 1, 0, 1⟩,     -- 1.0.0
    ⟨2, 0, 2, 3, 2⟩,     -- 2.0.0-2.3.0
    ⟨3, 0, 3, 0, 3⟩,     -- 3.0.0
    ⟨3, 1, 3, 2, 4⟩,     -- 3.0.1-3.0.2
    ⟨4, 0, 4, 1, 5⟩,     -- 4.0.0-4.1.0
    ⟨5, 0, 5, 1, 6⟩,     -- 5.0.0-5.1.0
    ⟨6, 0, 6, 1, 7⟩,     -- 6.0.0-6.1.0
    ⟨6, 2, 6, 2, 8⟩,     -- 6.2.0
    ⟨7, 0, 8, 1, 9⟩,     -- 7.0.0-8.0.1
    ⟨8, 1, 8, 1, 10⟩,    -- 8.1.0
    ⟨9, 0, 9, 1, 11⟩,    -- 9.0.0-9.0.1
    ⟨9, 1, 9, 2, 12⟩,    -- 9.1.0-9.2.0
    ⟨10, 0, 10, 2, 13⟩,  -- 10.0.0-10.2.0
    ⟨11, 0, 12, 1, 14⟩,  -- 11.0.0-12.0.1
    ⟨12, 2, 13, 1, 15⟩,  -- 12.0.2-13.1.0
    ⟨13, 2, 14, 1, 16⟩,  -- 13.2.1-14.1.2
    ⟨15, 0, 15, 1, 17⟩,  -- 15.0.0-15.0.1
    ⟨16, 0, 16, 1, 18⟩,  -- 16.0.0-16.1.0
    ⟨17, 0, 18, 1, 19⟩,  -- 17.0.0-18.1.0
    ⟨19, 0, 19, 1, 20⟩,  -- 19.0.0-19.0.1
    ⟨20, 0, 20, 5, 21⟩,  -- 20.0.0-20.5.0
    ⟨21, 0, 21, 1, 22⟩ ] -- 21.0.0-21.0.1

/-- The `for` loop of `get_required_fuses` over the rows not yet visited, with
the `return 1` that follows the loop. -/
def get_required_fuses_from (major minor : Nat) : List fw_fuse_map_t → Nat
  | [] => 1
  | e :: rest =>
    if major ≥ e.major_min ∧ major ≤ e.major_max then
      if major > e.major_min ∨ minor ≥ e.minor_min then
        if major < e.major_max ∨ minor ≤ e.minor_max then
          e.fuses_required
        else get_required_fuses_from major minor rest
      else get_required_fuses_from major minor rest
    else get_required_fuses_from major minor rest

/-- The function `get_required_fuses(major, minor)`. -/
def get_required_fuses (major minor : Nat) : Nat :=
  get_required_fuses_from major minor fuse_map

/-- The match predicate of a table row as the specification words it. -/
def rule_matches (major minor : Nat) (e : fw_fuse_map_t) : Bool :=
  decide ((e.major_min ≤ major ∧ major ≤ e.major_max) ∧
    (major > e.major_min ∨ minor ≥ e.minor_min) ∧
    (major < e.major_max ∨ minor ≤ e.minor_max))

/-- The specification of the lookup: the count of the first matching row, and
`1` when no row matches. -/
def first_match_required (major minor : Nat) : Nat :=
  match fuse_map.find? (rule_matches major minor) with
  | some e => e.fuses_required
  | none => 1

/-! ## The verdict block of `show_fuse_check_horizontal` -/

/-- What the status block prints: the status line, and the `%d` argument of the
line below it when that line has one. -/
structure status_block where
  status : String
  count : Option Int
deriving DecidableEq, Repr

/-- The `if / else if / else` of `show_fuse_check_horizontal` that follows the
three information lines; the `u8` operands of the subtractions are promoted to
`int`. -/
def show_fuse_check_horizontal (burnt_fuses required_fuses : Nat) : status_block :=
  if burnt_fuses < required_fuses then
    ⟨"STATUS: FUSE MISMATCH", some ((required_fuses : Int) - (burnt_fuses : Int))⟩
  else if burnt_fuses > required_fuses then
    ⟨"STATUS: FUSE MISMATCH (OVERBURNT)", some ((burnt_fuses : Int) - (required_fuses : Int))⟩
  else
    ⟨"STATUS: PERFECT MATCH", none⟩

/-! ## `parse_version_string` -/

/-- The loop `while (*p >= '0' && *p <= '9') { x = x * 10 + (*p - '0'); p++; }`
started with `x = acc`: the final `x` and the final `p`. -/
def scan_digits (acc : Int) : List Char → Int × List Char
  | [] => (acc, [])
  | c :: cs =>
    if is_digit c then
      scan_digits (int_wrap (int_wrap (acc * 10) + ((c.toNat : Int) - ('0'.toNat : Int)))) cs
    else (acc, c :: cs)

/-- The function `parse_version_string`: `none` is `return false`, and
`some (major, minor, patch)` is `return true` with the three outputs. The
argument `none` is the null pointer. -/
def parse_version_string (version_str : Option (List Char)) : Option (Nat × Nat × Nat) :=
  match version_str with
  | none => none
  | some s =>
    let r1 := scan_digits 0 s
    if deref r1.2 ≠ '.' then none
    else
      let r2 := scan_digits 0 r1.2.tail
      let r3 := if deref r2.2 = '.' then scan_digits 0 r2.2.tail else (0, r2.2)
      some (to_u8 r1.1, to_u8 r2.1, to_u8 r3.1)

/-- The decimal value of a digit string; the empty string counts as `0`. -/
def dec_val (ds : List Char) : Nat :=
  ds.foldl (fun n c => n * 10 + (c.toNat - '0'.toNat)) 0

/-! ## The database store and `load_database` -/

/-- A record of `nca_db`. -/
structure nca_entry_t where
  version : List Char
  nca_filename : List Char
deriving DecidableEq, Repr

/-- A record of `fuse_db`. -/
structure fuse_count_entry_t where
  version_range : List Char
  prod_fuses : Nat
  dev_fuses : Nat
deriving DecidableEq, Repr

/-- The capacity of `nca_db`. -/
def MAX_NCA_ENTRIES : Nat := 256

/-- The capacity of `fuse_db`. -/
def MAX_FUSE_ENTRIES : Nat := 64

/-- The global state of the database: both tables and the one-shot flag. -/
structure db_state where
  nca_db : List nca_entry_t
  fuse_db : List fuse_count_entry_t
  database_loaded : Bool
deriving DecidableEq, Repr

/-- The value of `nca_db_count`. -/
def db_state.nca_db_count (s : db_state) : Nat := s.nca_db.length

/-- The value of `fuse_db_count`. -/
def db_state.fuse_db_count (s : db_state) : Nat := s.fuse_db.length

/-- The state at process start. -/
def db_init : db_state := ⟨[], [], false⟩

/-- The function `str_ends_with` on non-null arguments. -/
def str_ends_with (s suffix : List Char) : Bool :=
  let ls := strlen s
  let lsf := strlen suffix
  decide (ls ≥ lsf) && strncmp_eq ((c_str s).drop (ls - lsf)) suffix lsf

/-- The function `strip_newline` on a non-null buffer: the string left in it. -/
def strip_newline (s : List Char) : List Char :=
  ((c_str s).reverse.dropWhile (fun c => c == '\n' || c == '\r')).reverse

/-- The loop `while (*p && isspace((unsigned char)*p)) p++;`: the final `p`. -/
def skip_space : List Char → List Char
  | [] => []
  | c :: cs => if c ≠ NUL ∧ isspace c = true then skip_space cs else c :: cs

/-- The loop `while (*p && !isspace((unsigned char)*p) && i < cap) buf[i++] = *p++;`
with `room = cap - i` places left: the characters stored and the final `p`. -/
def scan_token : Nat → List Char → List Char × List Char
  | 0, p => ([], p)
  | _ + 1, [] => ([], [])
  | room + 1, c :: cs =>
    if c ≠ NUL ∧ isspace c = false then
      ((c :: (scan_token room cs).1), (scan_token room cs).2)
    else ([], c :: cs)

/-- The body of the `while (f_gets ...)` loop of `load_database` for one line
buffer. -/
def load_database_line (s : db_state) (line : List Char) : db_state :=
  let p := skip_space (strip_newline line)
  if deref p = NUL ∨ deref p = '#' then s
  else if p.take 5 = ['[', 'N', 'C', 'A', ']'] then
    if s.nca_db_count ≥ MAX_NCA_ENTRIES then s
    else
      let v := scan_token 15 (skip_space (p.drop 5))
      let f := scan_token 63 (skip_space v.2)
      let version := v.1
      let filename := f.1
      if deref version ≠ NUL ∧ deref filename ≠ NUL ∧
          str_ends_with filename ['.', 'n', 'c', 'a'] = true then
        match parse_version_string (some version) with
        | some _ =>
          { s with nca_db := s.nca_db ++ [⟨strncpy version 15, strncpy filename 63⟩] }
        | none => s
      else s
  else if p.take 6 = ['[', 'F', 'U', 'S', 'E', ']'] then
    if s.fuse_db_count ≥ MAX_FUSE_ENTRIES then s
    else
      let r := scan_token 31 (skip_space (p.drop 6))
      let version_range := r.1
      let pr := scan_digits 0 (skip_space r.2)
      let prod_fuses := pr.1
      let dv := scan_digits 0 (skip_space pr.2)
      let dev_fuses := dv.1
      if deref version_range ≠ NUL ∧ prod_fuses ≥ 0 ∧ prod_fuses ≤ 255 ∧
          dev_fuses ≥ 0 ∧ dev_fuses ≤ 255 then
        { s with fuse_db := s.fuse_db ++
            [⟨strncpy version_range 31, to_u8 prod_fuses, to_u8 dev_fuses⟩] }
      else s
  else s

/-- The function `load_database`; `file` is `none` when `f_open` fails, else the
line buffers `f_gets` returns until the end of the file. -/
def load_database (s : db_state) (file : Option (List (List Char))) : db_state :=
  if s.database_loaded then s
  else
    let s1 := { s with database_loaded := true }
    match file with
    | none => s1
    | some lines => lines.foldl load_database_line s1

/-! ## `detect_firmware_from_nca` -/

/-- The outcomes of the collaborators of `detect_firmware_from_nca`. -/
structure bis_env where
  key_exists : Bool
  set_partition_ok : Bool
  system_part_found : Bool
  mount_ok : Bool
  opendir_ok : Bool
  listing : List (List Char)

/-- The inner `for` loop over `nca_db` for one directory entry: the version
written when the loop sets `result`, else `none`. -/
def nca_db_lookup (fname : List Char) : List nca_entry_t → Option (Nat × Nat × Nat)
  | [] => none
  | e :: rest =>
    if strcmp_eq fname e.nca_filename = true then
      match parse_version_string (some e.version) with
      | some v => some v
      | none => nca_db_lookup fname rest
    else nca_db_lookup fname rest

/-- The loop `while (f_readdir(&dir, &fno) == FR_OK && fno.fname[0])` over the
names the directory still yields. -/
def scan_registered (use_external_db : Bool) (db : List nca_entry_t) :
    List (List Char) → Option (Nat × Nat × Nat)
  | [] => none
  | fname :: rest =>
    if deref fname = NUL then none
    else
      match (if use_external_db then nca_db_lookup fname db else none) with
      | some v => some v
      | none => scan_registered use_external_db db rest

/-- The function `detect_firmware_from_nca`: the database state it leaves and
the version it reports (`none` is `return false`). -/
def detect_firmware_from_nca (s : db_state) (file : Option (List (List Char)))
    (env : bis_env) : db_state × Option (Nat × Nat × Nat) :=
  let s1 := load_database s file
  let use_external_db := decide (s1.nca_db_count > 0)
  if !env.key_exists then (s1, none)
  else if !env.set_partition_ok then (s1, none)
  else if !env.system_part_found then (s1, none)
  else if !env.mount_ok then (s1, none)
  else if env.opendir_ok then (s1, scan_registered use_external_db s1.nca_db env.listing)
  else (s1, none)

/-! ## Fields of a database line, as the specification words them -/

/-- The first whitespace-delimited field of a text: leading whitespace is
skipped and the field runs up to the next whitespace or the end. -/
def first_field (t : List Char) : List Char :=
  (t.dropWhile isspace).takeWhile (fun c => !isspace c)

/-- What follows the first `n` characters of the first field of a text (all of
the field when it has at most `n` characters). -/
def after_field (n : Nat) (t : List Char) : List Char :=
  (t.dropWhile isspace).drop (min n (first_field t).length)

/-- The digit run that follows the leading whitespace of a text. -/
def digit_field (t : List Char) : List Char :=
  (t.dropWhile isspace).takeWhile is_digit

/-- What follows that digit run. -/
def after_digit_field (t : List Char) : List Char :=
  (t.dropWhile isspace).dropWhile is_digit

/-- A character of a line terminator. -/
def is_eol (c : Char) : Bool := c == '\n' || c == '\r'

/-- The database line of the specification's example with a filename of 69
characters. -/
def long_nca_line : List Char :=
  "[NCA] 18.0.1 01234567890123456789012345678901234567890123456789012345678901234.nca".toList

/-- The filename field of `long_nca_line`. -/
def long_nca_name : List Char :=
  "01234567890123456789012345678901234567890123456789012345678901234.nca".toList

/-- A `[FUSE]` line whose production count is 256. -/
def fuse_line_256 : List Char := "[FUSE] 1.0.0 256 1".toList

/-- The records of an NCA table are well formed: the version parses and the
filename is a non-empty string. -/
def nca_db_ok (db : List nca_entry_t) : Prop :=
  ∀ e ∈ db, parse_version_string (some e.version) ≠ none ∧ NUL ∉ e.nca_filename ∧
    e.nca_filename ≠ []

/-- A database file of two `[NCA]` lines. -/
def example_db_file : Option (List (List Char)) :=
  some ["[NCA] 18.0.1 abc.nca".toList ++ ['\n'], "[NCA] 5.0 def.nca".toList ++ ['\n']]

/-- An environment in which every step succeeds and the directory lists three
names, the second and third of which are in `example_db_file`. -/
def example_env : bis_env :=
  { key_exists := true, set_partition_ok := true, system_part_found := true,
    mount_ok := true, opendir_ok := true,
    listing := ["zzz.nca".toList, "def.nca".toList, "abc.nca".toList] }

/-! ## `get_burnt_fuses` -/

/-- One loop `for (u32 i = 0; i < 32; i++) if ((x >> i) & 1) fuse_count++;` of
`get_burnt_fuses`, with `n` iterations left at index `i`; `fuse_count` is a `u8`,
so the increment is taken modulo 256. -/
def count_odm_bits (x : Nat) : Nat → Nat → Nat → Nat
  | 0, _, fuse_count => fuse_count
  | n + 1, i, fuse_count =>
    count_odm_bits x n (i + 1)
      (if (x >>> i) &&& 1 ≠ 0 then (fuse_count + 1) % 256 else fuse_count)

/-- The function `get_burnt_fuses`; the arguments are the values that
`fuse_read_odm(6)` and `fuse_read_odm(7)` return. -/
def get_burnt_fuses (fuse_odm6 fuse_odm7 : Nat) : Nat :=
  count_odm_bits fuse_odm7 32 0 (count_odm_bits fuse_odm6 32 0 0)

/-- The population count of a 32-bit value: the number of bit positions
`0 .. 31` at which the bit is set. -/
def popcount (x : Nat) : Nat := ((List.range 32).filter (fun i => x.testBit i)).length

/-! ## Records and bounds of the database, for the theorems on whole files -/

/-- The record that the loop body of `load_database` stores in an empty fuse
table for a line, if it stores one: the record of an accepted `[FUSE]` line. -/
def fuse_line_record (line : List Char) : Option fuse_count_entry_t :=
  (load_database_line db_init line).fuse_db.head?

/-- A record fits an element of `nca_db`: `version` has room for 15 characters
and a terminator, `nca_filename` for 63 and a terminator. -/
def nca_entry_fits (e : nca_entry_t) : Prop :=
  e.version.length ≤ 15 ∧ NUL ∉ e.version ∧ e.nca_filename.length ≤ 63 ∧ NUL ∉ e.nca_filename

/-- A record fits an element of `fuse_db`: `version_range` has room for 31
characters and a terminator, and both counts are `u8` values. -/
def fuse_entry_fits (e : fuse_count_entry_t) : Prop :=
  e.version_range.length ≤ 31 ∧ NUL ∉ e.version_range ∧ e.prod_fuses < 256 ∧ e.dev_fuses < 256

/-- The state fits its arrays: both counts are within the capacities and every
record fits its element. -/
def db_fits (s : db_state) : Prop :=
  s.nca_db_count ≤ MAX_NCA_ENTRIES ∧ s.fuse_db_count ≤ MAX_FUSE_ENTRIES ∧
  (∀ e ∈ s.nca_db, nca_entry_fits e) ∧ (∀ e ∈ s.fuse_db, fuse_entry_fits e)

/-- The two `[FUSE]` lines of the specification's example, as read by `f_gets`. -/
def two_fuse_lines : List (List Char) :=
  ["[FUSE] 1.0.0 1 1".toList ++ ['\n'], "[FUSE] 1.0.0 2 2".toList ++ ['\n']]

/-! ## Theorems: the fuse table -/

theorem get_required_fuses_from_eq_find (major minor : Nat) (t : List fw_fuse_map_t) :
    get_required_fuses_from major minor t =
      match t.find? (rule_matches major minor) with
      | some e => e.fuses_required
      | none => 1 := by
  induction t with
  | nil => rfl
  | cons e rest ih =>
    by_cases h : rule_matches major minor e = true
    · have h2 := h
      simp only [rule_matches, decide_eq_true_eq] at h2
      simp [get_required_fuses_from, List.find?_cons, h, h2.1, h2.2.1, h2.2.2]
    · have h2 := h
      simp only [rule_matches, decide_eq_true_eq] at h2
      simp only [List.find?_cons, h, get_required_fuses_from]
      rw [← ih]
      split_ifs <;> first | rfl | (exfalso; exact h2 ⟨‹_›, ‹_›, ‹_›⟩)

/-- C1: for every pair `(major, minor)` (all naturals, so in particular every
`u8` pair in 0..255 x 0..255), `get_required_fuses` returns the
`fuses_required` of the first row of `fuse_map`, in table order, that satisfies
the match predicate, and `1` when no row does; `(6,2)` gives 8, `(11,5)` gives
14 and `(0,9)` gives 1. -/
theorem get_required_fuses_first_match :
    (∀ major minor : Nat,
      get_required_fuses major minor = first_match_required major minor ∧
      (∀ e, fuse_map.find? (rule_matches major minor) = some e →
        get_required_fuses major minor = e.fuses_required) ∧
      (fuse_map.find? (rule_matches major minor) = none →
        get_required_fuses major minor = 1)) ∧
    get_required_fuses 6 2 = 8 ∧ get_required_fuses 11 5 = 14 ∧
    get_required_fuses 0 9 = 1 := by
  refine ⟨fun major minor => ?_, by decide, by decide, by decide⟩
  have h := get_required_fuses_from_eq_find major minor fuse_map
  refine ⟨h, ?_, ?_⟩
  · intro e he
    rw [get_required_fuses, h, he]
  · intro hn
    rw [get_required_fuses, h, hn]

theorem fuse_map_no_match_above (major minor : Nat) (h : ¬ major < 22) :
    fuse_map.filter (rule_matches major minor) = [] := by
  rw [List.filter_eq_nil_iff]
  intro e he
  simp only [fuse_map, List.mem_cons, List.mem_singleton, List.not_mem_nil, or_false] at he
  rcases he with rfl | rfl | rfl | rfl | rfl | rfl | rfl | rfl | rfl | rfl | rfl | rfl |
      rfl | rfl | rfl | rfl | rfl | rfl | rfl | rfl | rfl | rfl <;>
    simp [rule_matches] <;> omega

/-- C5 (evaluation at the failing inputs): at `(8,1)` and at `(9,1)` two rows of
`fuse_map` satisfy the match predicate of `get_required_fuses`, so the table is
not free of overlap; these are the only two versions at which two rows match. -/
theorem fuse_map_overlap_at_8_1_and_9_1 :
    fuse_map.filter (rule_matches 8 1) = [⟨7, 0, 8, 1, 9⟩, ⟨8, 1, 8, 1, 10⟩] ∧
    fuse_map.filter (rule_matches 9 1) = [⟨9, 0, 9, 1, 11⟩, ⟨9, 1, 9, 2, 12⟩] ∧
    (∀ major minor : Nat, 2 ≤ (fuse_map.filter (rule_matches major minor)).length ↔
      (major = 8 ∧ minor = 1) ∨ (major = 9 ∧ minor = 1)) := by
  refine ⟨by decide, by decide, fun major minor => ?_⟩
  by_cases h : major < 22
  · interval_cases major <;> simp [fuse_map, rule_matches, List.filter] <;>
      (repeat' split) <;> simp_all <;> omega
  · rw [fuse_map_no_match_above major minor h]
    simp
    omega

/-- C6 (evaluation at the failing inputs): `get_required_fuses 8 1` is 9, not
the 10 of the row commented `8.1.0`, and `get_required_fuses 9 1` is 11, not the
12 of the row commented `9.1.0-9.2.0`; every other row does decide the count of
its own lower bound. -/
theorem get_required_fuses_lower_bound_rows :
    get_required_fuses 8 1 = 9 ∧ get_required_fuses 9 1 = 11 ∧
    (∀ e ∈ fuse_map,
      (get_required_fuses e.major_min e.minor_min = e.fuses_required ↔
        (e ≠ ⟨8, 1, 8, 1, 10⟩ ∧ e ≠ ⟨9, 1, 9, 2, 12⟩))) := by
  refine ⟨by decide, by decide, by decide⟩

/-! ## Theorems: the verdict -/

/-- C2: for `u8` values `burnt` and `required` the status block shows exactly
one of three outcomes: `FUSE MISMATCH` iff `burnt < required`, with count
`required - burnt`; `FUSE MISMATCH (OVERBURNT)` iff `burnt > required`, with
count `burnt - required`; `PERFECT MATCH` iff `burnt = required`, with no count.
A reported count is `|burnt - required|` and is strictly positive. -/
theorem show_fuse_check_horizontal_verdict (burnt required : Nat)
    (hb : burnt < 256) (hr : required < 256) :
    ((show_fuse_check_horizontal burnt required).status = "STATUS: FUSE MISMATCH" ↔
      burnt < required) ∧
    ((show_fuse_check_horizontal burnt required).status =
      "STATUS: FUSE MISMATCH (OVERBURNT)" ↔ burnt > required) ∧
    ((show_fuse_check_horizontal burnt required).status = "STATUS: PERFECT MATCH" ↔
      burnt = required) ∧
    (burnt < required →
      (show_fuse_check_horizontal burnt required).count =
        some ((required : Int) - (burnt : Int))) ∧
    (burnt > required →
      (show_fuse_check_horizontal burnt required).count =
        some ((burnt : Int) - (required : Int))) ∧
    (burnt = required → (show_fuse_check_horizontal burnt required).count = none) ∧
    (∀ n, (show_fuse_check_horizontal burnt required).count = some n →
      n = |(burnt : Int) - (required : Int)| ∧ 0 < n ∧ n < 256 ∧ burnt ≠ required) := by
  have d1 : "STATUS: FUSE MISMATCH" ≠ "STATUS: FUSE MISMATCH (OVERBURNT)" := by decide
  have d2 : "STATUS: FUSE MISMATCH" ≠ "STATUS: PERFECT MATCH" := by decide
  have d3 : "STATUS: FUSE MISMATCH (OVERBURNT)" ≠ "STATUS: PERFECT MATCH" := by decide
  rcases Nat.lt_trichotomy burnt required with h | h | h
  · have h1 : ¬ required < burnt := by omega
    have h2 : burnt ≠ required := by omega
    have h3 : |(burnt : Int) - (required : Int)| = (required : Int) - (burnt : Int) := by
      rw [abs_of_nonpos (by omega)]; omega
    simp only [show_fuse_check_horizontal, h, if_true, h1, h2, gt_iff_lt, true_iff, iff_false,
      false_iff, not_false_eq_true, d1, d2, true_and, true_implies, false_implies, h3,
      Option.some.injEq, reduceCtorEq]
    rintro n rfl
    omega
  · subst h
    simp only [show_fuse_check_horizontal, lt_irrefl, if_false, gt_iff_lt, iff_false,
      false_iff, true_iff, d2.symm, d3.symm, not_false_eq_true, true_and, false_implies,
      true_implies, reduceCtorEq]
    simp
  · have h1 : ¬ burnt < required := by omega
    have h2 : burnt ≠ required := by omega
    have h3 : |(burnt : Int) - (required : Int)| = (burnt : Int) - (required : Int) := by
      rw [abs_of_nonneg (by omega)]
    simp only [show_fuse_check_horizontal, h, if_true, if_false, h1, h2, gt_iff_lt, true_iff,
      iff_false, false_iff, not_false_eq_true, d1.symm, d3, true_and, true_implies,
      false_implies, h3, Option.some.injEq, reduceCtorEq]
    rintro n rfl
    omega

theorem show_fuse_check_horizontal_verdict_witness :
    (3 < 256 ∧ 8 < 256) ∧
    (show_fuse_check_horizontal 3 8).status = "STATUS: FUSE MISMATCH" ∧
    (show_fuse_check_horizontal 3 8).count = some 5 :=
  ⟨by decide,
    (show_fuse_check_horizontal_verdict 3 8 (by decide) (by decide)).1.mpr (by decide),
    (show_fuse_check_horizontal_verdict 3 8 (by decide) (by decide)).2.2.2.1 (by decide)⟩

/-! ## Theorems: characters and digit runs -/

theorem NUL_toNat : NUL.toNat = 0 := by decide

theorem char_eq_of_toNat_eq {c d : Char} (h : c.toNat = d.toNat) : c = d := by
  apply Char.ext
  exact UInt32.toNat.inj h

theorem deref_nil : deref [] = NUL := rfl

theorem deref_cons (c : Char) (cs : List Char) : deref (c :: cs) = c := rfl

theorem is_digit_iff (c : Char) : is_digit c = true ↔ 48 ≤ c.toNat ∧ c.toNat ≤ 57 := by
  simp [is_digit]

theorem isspace_iff (c : Char) :
    isspace c = true ↔ c.toNat = 32 ∨ (9 ≤ c.toNat ∧ c.toNat ≤ 13) := by
  have h : c = ' ' ↔ c.toNat = 32 := by
    constructor
    · rintro rfl; rfl
    · intro hc
      have h32 : (' ' : Char).toNat = 32 := by decide
      exact char_eq_of_toNat_eq (hc.trans h32.symm)
  simp [isspace, h]

theorem is_digit_ne_dot {c : Char} (h : is_digit c = true) : c ≠ '.' := by
  rintro rfl
  revert h
  decide

theorem is_digit_ne_NUL {c : Char} (h : is_digit c = true) : c ≠ NUL := by
  rintro rfl
  revert h
  decide

theorem is_digit_not_isspace {c : Char} (h : is_digit c = true) : isspace c = false := by
  rw [is_digit_iff] at h
  rw [Bool.eq_false_iff, Ne, isspace_iff]
  omega

theorem isspace_ne_NUL {c : Char} (h : isspace c = true) : c ≠ NUL := by
  rintro rfl
  revert h
  decide

theorem int_wrap_of_range {x : Int} (h0 : 0 ≤ x) (h1 : x < 2147483648) : int_wrap x = x := by
  unfold int_wrap Int.bmod
  simp only []
  split_ifs with h <;> omega

theorem to_u8_of_le {n : Nat} (h : n ≤ 255) : to_u8 (n : Int) = n := by
  unfold to_u8
  omega

theorem to_u8_natCast (n : Nat) : to_u8 (n : Int) = n % 256 := by
  unfold to_u8
  omega

theorem deref_ne_dot_iff (p : List Char) : deref p ≠ '.' ↔ p.head? ≠ some '.' := by
  cases p with
  | nil => simp [deref]; decide
  | cons c cs => simp [deref]

theorem scan_digits_snd (acc : Int) (s : List Char) :
    (scan_digits acc s).2 = s.dropWhile is_digit := by
  induction s generalizing acc with
  | nil => rfl
  | cons c cs ih =>
    by_cases h : is_digit c = true
    · simp [scan_digits, h, ih]
    · simp [scan_digits, h]

/-- The accumulator of the digit loop as a natural number, without wrapping. -/
theorem dec_fold_le (ds : List Char) (a : Nat) :
    a ≤ ds.foldl (fun n c => n * 10 + (c.toNat - '0'.toNat)) a := by
  induction ds generalizing a with
  | nil => simp
  | cons c cs ih =>
    simp only [List.foldl_cons]
    exact le_trans (by omega) (ih _)

theorem scan_digits_run (ds rest : List Char) (a : Nat)
    (hds : ∀ x ∈ ds, is_digit x = true)
    (hrest : ∀ x ∈ rest.head?, is_digit x = false)
    (hval : ds.foldl (fun n c => n * 10 + (c.toNat - '0'.toNat)) a < 2147483648) :
    scan_digits (a : Int) (ds ++ rest) =
      (((ds.foldl (fun n c => n * 10 + (c.toNat - '0'.toNat)) a : Nat) : Int), rest) := by
  induction ds generalizing a with
  | nil =>
    cases rest with
    | nil => rfl
    | cons c cs =>
      have hc : is_digit c = false := hrest c (by simp)
      simp [scan_digits, hc]
  | cons c cs ih =>
    have hc : is_digit c = true := hds c (by simp)
    have hc2 := (is_digit_iff c).1 hc
    simp only [List.foldl_cons] at hval
    have hle := dec_fold_le cs (a * 10 + (c.toNat - '0'.toNat))
    have h48 : ('0'.toNat : Nat) = 48 := by decide
    have e1 : int_wrap ((a : Int) * 10) = (a : Int) * 10 :=
      int_wrap_of_range (by omega) (by omega)
    have e2 : int_wrap ((a : Int) * 10 + ((c.toNat : Int) - ('0'.toNat : Int))) =
        ((a * 10 + (c.toNat - '0'.toNat) : Nat) : Int) := by
      rw [int_wrap_of_range (by omega) (by omega)]
      omega
    have step := ih _ (fun x hx => hds x (by simp [hx])) hval
    simp only [List.cons_append, scan_digits, hc, if_true, e1, e2, List.foldl_cons]
    exact step

theorem scan_digits_dec_val (ds rest : List Char)
    (hds : ∀ x ∈ ds, is_digit x = true)
    (hrest : ∀ x ∈ rest.head?, is_digit x = false)
    (hval : dec_val ds < 2147483648) :
    scan_digits 0 (ds ++ rest) = ((dec_val ds : Int), rest) := by
  have h := scan_digits_run ds rest 0 hds hrest hval
  simpa [dec_val] using h

/-! ## Theorems: `parse_version_string` -/

/-- C3: for every non-null string `s`, `parse_version_string` fails if and only
if the character that follows the leading run of digits of `s` is not `.`; it
fails on the empty string, on `abc` and on `5`, and it succeeds on every string
made of digits, a `.` and anything. -/
theorem parse_version_string_fails_iff :
    (∀ s : List Char, parse_version_string (some s) = none ↔
      (s.dropWhile is_digit).head? ≠ some '.') ∧
    parse_version_string (some []) = none ∧
    parse_version_string (some ['a', 'b', 'c']) = none ∧
    parse_version_string (some ['5']) = none ∧
    (∀ ds rest : List Char, (∀ x ∈ ds, is_digit x = true) →
      (parse_version_string (some (ds ++ '.' :: rest))).isSome = true) := by
  have key : ∀ s : List Char, parse_version_string (some s) = none ↔
      (s.dropWhile is_digit).head? ≠ some '.' := by
    intro s
    rw [← deref_ne_dot_iff, ← scan_digits_snd 0 s]
    by_cases h : deref (scan_digits 0 s).2 = '.'
    · simp [parse_version_string, h]
    · simp [parse_version_string, h]
  refine ⟨key, by decide, by decide, by decide, ?_⟩
  intro ds rest hds
  rw [Option.isSome_iff_ne_none, Ne, key]
  have hd : ('.' :: rest).dropWhile is_digit = '.' :: rest := by
    rw [List.dropWhile_cons_of_neg]
    decide
  rw [List.dropWhile_append_of_pos hds, hd]
  simp

theorem parse_version_string_fails_iff_witness :
    (∀ x ∈ ['1', '8'], is_digit x = true) ∧
    (parse_version_string (some (['1', '8'] ++ '.' :: ['x', 'y']))).isSome = true :=
  ⟨by decide, parse_version_string_fails_iff.2.2.2.2 ['1', '8'] ['x', 'y'] (by decide)⟩

/-- C4: for digit strings `a`, `b`, `c` of decimal value at most 255 (an empty
run counts as 0), `a.b.c` followed by a suffix that is empty or begins with a
non-digit parses to `(val a, val b, val c)`, and `a.b` followed by a suffix that
is empty or begins with a character that is neither a digit nor `.` parses to
`(val a, val b, 0)`; `18.0.1` gives `(18,0,1)` and `5.0` gives `(5,0,0)`. -/
theorem parse_version_string_value (a b c r r2 : List Char)
    (ha : ∀ x ∈ a, is_digit x = true) (hb : ∀ x ∈ b, is_digit x = true)
    (hc : ∀ x ∈ c, is_digit x = true)
    (hva : dec_val a ≤ 255) (hvb : dec_val b ≤ 255) (hvc : dec_val c ≤ 255)
    (hr : ∀ x ∈ r.head?, is_digit x = false)
    (hr2 : ∀ x ∈ r2.head?, is_digit x = false ∧ x ≠ '.') :
    parse_version_string (some (a ++ '.' :: (b ++ '.' :: (c ++ r)))) =
      some (dec_val a, dec_val b, dec_val c) ∧
    parse_version_string (some (a ++ '.' :: (b ++ r2))) =
      some (dec_val a, dec_val b, 0) ∧
    parse_version_string (some ['1', '8', '.', '0', '.', '1']) = some (18, 0, 1) ∧
    parse_version_string (some ['5', '.', '0']) = some (5, 0, 0) := by
  have hdot : ∀ t : List Char, ∀ x ∈ ('.' :: t).head?, is_digit x = false := by
    intro t x hx
    simp only [List.head?_cons, Option.mem_def, Option.some.injEq] at hx
    subst hx
    decide
  refine ⟨?_, ?_, by decide, by decide⟩
  · have e1 := scan_digits_dec_val a ('.' :: (b ++ '.' :: (c ++ r))) ha (hdot _) (by omega)
    have e2 := scan_digits_dec_val b ('.' :: (c ++ r)) hb (hdot _) (by omega)
    have e3 := scan_digits_dec_val c r hc hr (by omega)
    simp [parse_version_string, e1, e2, e3, deref_cons, to_u8_of_le hva, to_u8_of_le hvb,
      to_u8_of_le hvc]
  · have e1 := scan_digits_dec_val a ('.' :: (b ++ r2)) ha (hdot _) (by omega)
    have e2 := scan_digits_dec_val b r2 hb (fun x hx => (hr2 x hx).1) (by omega)
    have hnd : deref r2 ≠ '.' := by
      cases r2 with
      | nil => simp [deref]; decide
      | cons x t => simpa [deref] using (hr2 x (by simp)).2
    have z : to_u8 0 = 0 := by decide
    simp [parse_version_string, e1, e2, deref_cons, hnd, to_u8_of_le hva, to_u8_of_le hvb, z]

theorem parse_version_string_value_witness :
    parse_version_string (some (['1', '8'] ++ '.' :: (['0'] ++ '.' :: (['1'] ++ ['-', 'r'])))) =
      some (dec_val ['1', '8'], dec_val ['0'], dec_val ['1']) ∧
    dec_val ['1', '8'] = 18 ∧
    parse_version_string (some (['1', '8'] ++ '.' :: (['0'] ++ ['-', 'r']))) =
      some (dec_val ['1', '8'], dec_val ['0'], 0) :=
  ⟨(parse_version_string_value ['1', '8'] ['0'] ['1'] ['-', 'r'] ['-', 'r']
      (by decide) (by decide) (by decide) (by decide) (by decide) (by decide)
      (by decide) (by decide)).1,
    by decide,
    (parse_version_string_value ['1', '8'] ['0'] ['1'] ['-', 'r'] ['-', 'r']
      (by decide) (by decide) (by decide) (by decide) (by decide) (by decide)
      (by decide) (by decide)).2.1⟩

/-! ## Theorems: strings and tokens -/

theorem c_str_of_no_NUL {t : List Char} (h : NUL ∉ t) : c_str t = t := by
  unfold c_str
  rw [List.takeWhile_eq_self_iff]
  intro c hc
  simp only [bne_iff_ne, ne_eq]
  rintro rfl
  exact h hc

theorem no_NUL_c_str (t : List Char) : NUL ∉ c_str t := by
  intro h
  have := List.mem_takeWhile_imp h
  simp at this

theorem skip_space_eq (p : List Char) : skip_space p = p.dropWhile isspace := by
  induction p with
  | nil => rfl
  | cons c cs ih =>
    by_cases h : isspace c = true
    · simp [skip_space, h, isspace_ne_NUL h, ih]
    · simp [skip_space, h]

theorem scan_token_fst_length (n : Nat) (p : List Char) : (scan_token n p).1.length ≤ n := by
  induction n generalizing p with
  | zero => simp [scan_token]
  | succ k ih =>
    cases p with
    | nil => simp [scan_token]
    | cons c cs =>
      simp only [scan_token]
      split_ifs
      · simpa using ih cs
      · simp

theorem scan_token_fst_no_NUL (n : Nat) (p : List Char) : NUL ∉ (scan_token n p).1 := by
  induction n generalizing p with
  | zero => simp [scan_token]
  | succ k ih =>
    cases p with
    | nil => simp [scan_token]
    | cons c cs =>
      simp only [scan_token]
      split_ifs with h
      · simp only [List.mem_cons, not_or]
        exact ⟨fun e => h.1 e.symm, ih cs⟩
      · simp

theorem strncpy_scan_token (n : Nat) (p : List Char) :
    strncpy (scan_token n p).1 n = (scan_token n p).1 := by
  unfold strncpy
  rw [c_str_of_no_NUL (scan_token_fst_no_NUL n p)]
  exact List.take_of_length_le (scan_token_fst_length n p)

theorem scan_token_fst (n : Nat) (p : List Char) (hp : NUL ∉ p) :
    (scan_token n p).1 = (p.takeWhile (fun c => !isspace c)).take n := by
  induction n generalizing p with
  | zero => simp [scan_token]
  | succ k ih =>
    cases p with
    | nil => simp [scan_token]
    | cons c cs =>
      have hc : c ≠ NUL := fun e => hp (by simp [e])
      have hcs : NUL ∉ cs := fun e => hp (by simp [e])
      by_cases h : isspace c = true
      · simp [scan_token, h]
      · simp [scan_token, h, hc, ih cs hcs]

theorem scan_token_snd (n : Nat) (p : List Char) (hp : NUL ∉ p) :
    (scan_token n p).2 = p.drop (min n (p.takeWhile (fun c => !isspace c)).length) := by
  induction n generalizing p with
  | zero => simp [scan_token]
  | succ k ih =>
    cases p with
    | nil => simp [scan_token]
    | cons c cs =>
      have hc : c ≠ NUL := fun e => hp (by simp [e])
      have hcs : NUL ∉ cs := fun e => hp (by simp [e])
      by_cases h : isspace c = true
      · simp [scan_token, h]
      · simp [scan_token, h, hc, ih cs hcs, Nat.succ_min_succ]

theorem deref_ne_NUL_iff {t : List Char} (h : NUL ∉ t) : deref t ≠ NUL ↔ t ≠ [] := by
  cases t with
  | nil => simp [deref]
  | cons c cs =>
    simp only [deref_cons, ne_eq, reduceCtorEq, not_false_eq_true, iff_true]
    rintro rfl
    exact h (by simp)

theorem str_ends_with_iff (f suf : List Char) (hf : NUL ∉ f) (hs : NUL ∉ suf) :
    str_ends_with f suf = true ↔ ∃ stem, f = stem ++ suf := by
  have hd : NUL ∉ f.drop (f.length - suf.length) := fun h => hf (List.mem_of_mem_drop h)
  simp only [str_ends_with, strlen, strncmp_eq, c_str_of_no_NUL hf, c_str_of_no_NUL hs,
    c_str_of_no_NUL hd, Bool.and_eq_true, decide_eq_true_eq, beq_iff_eq, ge_iff_le,
    List.take_length]
  constructor
  · rintro ⟨hle, heq⟩
    refine ⟨f.take (f.length - suf.length), ?_⟩
    have hl : (f.drop (f.length - suf.length)).length = suf.length := by
      rw [List.length_drop]; omega
    rw [List.take_of_length_le (by omega)] at heq
    have h := List.take_append_drop (f.length - suf.length) f
    rw [heq] at h
    exact h.symm
  · rintro ⟨stem, rfl⟩
    refine ⟨by simp, ?_⟩
    simp

theorem strip_newline_text (text eol : List Char) (hnul : NUL ∉ text)
    (hlast : ∀ c ∈ text.getLast?, is_eol c = false)
    (heol : ∀ c ∈ eol, is_eol c = true) :
    strip_newline (text ++ eol) = text := by
  have hn : NUL ∉ text ++ eol := by
    simp only [List.mem_append, not_or]
    refine ⟨hnul, fun h => ?_⟩
    have := heol NUL h
    revert this
    decide
  have hrev : (text.reverse).dropWhile is_eol = text.reverse := by
    cases hr : text.reverse with
    | nil => rfl
    | cons c cs =>
      have hc : text.getLast? = some c := by
        rw [← List.head?_reverse, hr]; rfl
      have := hlast c hc
      simp [this]
  have hfun : (fun c : Char => c == '\n' || c == '\r') = is_eol := rfl
  unfold strip_newline
  rw [c_str_of_no_NUL hn, hfun, List.reverse_append,
    List.dropWhile_append_of_pos (by simpa using heol), hrev, List.reverse_reverse]

/-- Every line without a terminator character inside splits into a text that
does not end with `\n` or `\r`, followed by a run of such characters. -/
theorem line_split (line : List Char) (h : NUL ∉ line) :
    ∃ text eol, line = text ++ eol ∧ NUL ∉ text ∧
      (∀ c ∈ text.getLast?, is_eol c = false) ∧ (∀ c ∈ eol, is_eol c = true) := by
  refine ⟨(line.reverse.dropWhile is_eol).reverse, (line.reverse.takeWhile is_eol).reverse,
    ?_, ?_, ?_, ?_⟩
  · rw [← List.reverse_append, List.takeWhile_append_dropWhile, List.reverse_reverse]
  · intro hm
    rw [List.mem_reverse] at hm
    exact h (List.mem_reverse.1 ((List.dropWhile_sublist is_eol).subset hm))
  · intro c hc
    rw [List.getLast?_reverse] at hc
    cases hd : line.reverse.dropWhile is_eol with
    | nil => rw [hd] at hc; simp at hc
    | cons x xs =>
      rw [hd] at hc
      simp only [List.head?_cons, Option.mem_def, Option.some.injEq] at hc
      subst hc
      have := List.head_dropWhile_not is_eol line.reverse (by rw [hd]; simp)
      simpa [hd] using this
  · intro c hc
    rw [List.mem_reverse] at hc
    exact List.mem_takeWhile_imp hc

/-! ## Theorems: one line of the database -/

theorem deref_scan_token_ne_NUL (n : Nat) (p : List Char) :
    deref (scan_token n p).1 ≠ NUL ↔ (scan_token n p).1 ≠ [] :=
  deref_ne_NUL_iff (scan_token_fst_no_NUL n p)

theorem no_NUL_dropWhile {t : List Char} (h : NUL ∉ t) (q : Char → Bool) :
    NUL ∉ t.dropWhile q :=
  fun hm => h ((List.dropWhile_sublist q).subset hm)

theorem no_NUL_drop {t : List Char} (h : NUL ∉ t) (n : Nat) : NUL ∉ t.drop n :=
  fun hm => h (List.mem_of_mem_drop hm)

theorem no_NUL_after_field {t : List Char} (h : NUL ∉ t) (n : Nat) :
    NUL ∉ after_field n t :=
  no_NUL_drop (no_NUL_dropWhile h _) _

theorem line_head (text eol : List Char) (hnul : NUL ∉ text)
    (hlast : ∀ c ∈ text.getLast?, is_eol c = false)
    (heol : ∀ c ∈ eol, is_eol c = true) :
    skip_space (strip_newline (text ++ eol)) = text.dropWhile isspace := by
  rw [strip_newline_text text eol hnul hlast heol, skip_space_eq]

theorem scan_token_field_fst (n : Nat) (t : List Char) (h : NUL ∉ t) :
    (scan_token n (skip_space t)).1 = (first_field t).take n := by
  rw [skip_space_eq, scan_token_fst n _ (no_NUL_dropWhile h _)]
  rfl

theorem scan_token_field_snd (n : Nat) (t : List Char) (h : NUL ∉ t) :
    (scan_token n (skip_space t)).2 = after_field n t := by
  rw [skip_space_eq, scan_token_snd n _ (no_NUL_dropWhile h _)]
  rfl

theorem scan_digits_field (t : List Char) (hval : dec_val (digit_field t) < 2147483648) :
    scan_digits 0 (skip_space t) = ((dec_val (digit_field t) : Int), after_digit_field t) := by
  have hsplit : skip_space t = digit_field t ++ after_digit_field t := by
    rw [skip_space_eq]
    exact (List.takeWhile_append_dropWhile is_digit (t.dropWhile isspace)).symm
  rw [hsplit]
  apply scan_digits_dec_val _ _ _ _ hval
  · intro x hx
    exact List.mem_takeWhile_imp hx
  · intro x hx
    unfold after_digit_field at hx
    cases hd : (t.dropWhile isspace).dropWhile is_digit with
    | nil => rw [hd] at hx; simp at hx
    | cons c cs =>
      rw [hd] at hx
      simp only [List.head?_cons, Option.mem_def, Option.some.injEq] at hx
      subst hx
      have := List.head_dropWhile_not is_digit (t.dropWhile isspace) (by rw [hd]; simp)
      simpa [hd] using this

/-- The `[NCA]` branch of the loop body on a line made of a text and its line
terminator, in terms of the fields of the text. -/
theorem load_database_line_nca_form (s : db_state) (text eol rest : List Char)
    (hnul : NUL ∉ text) (hlast : ∀ c ∈ text.getLast?, is_eol c = false)
    (heol : ∀ c ∈ eol, is_eol c = true)
    (hpre : text.dropWhile isspace = '[' :: 'N' :: 'C' :: 'A' :: ']' :: rest) :
    load_database_line s (text ++ eol) =
      if s.nca_db.length ≥ 256 then s
      else if (first_field rest).take 15 ≠ [] ∧
          (first_field (after_field 15 rest)).take 63 ≠ [] ∧
          str_ends_with ((first_field (after_field 15 rest)).take 63)
            ['.', 'n', 'c', 'a'] = true then
        match parse_version_string (some ((first_field rest).take 15)) with
        | some _ =>
          { s with nca_db := s.nca_db ++
              [⟨(first_field rest).take 15, (first_field (after_field 15 rest)).take 63⟩] }
        | none => s
      else s := by
  have hp := line_head text eol hnul hlast heol
  have hrest : NUL ∉ rest := by
    have h := no_NUL_dropWhile hnul isspace
    rw [hpre] at h
    intro hm
    exact h (by simp [hm])
  have hv1 := scan_token_field_fst 15 rest hrest
  have hv2 := scan_token_field_snd 15 rest hrest
  have hf1 := scan_token_field_fst 63 (after_field 15 rest) (no_NUL_after_field hrest 15)
  have hb : deref ('[' :: 'N' :: 'C' :: 'A' :: ']' :: rest) ≠ NUL ∧
      deref ('[' :: 'N' :: 'C' :: 'A' :: ']' :: rest) ≠ '#' := by
    constructor <;> (rw [deref_cons]; decide)
  simp only [load_database_line, hp, hpre, hb.1, hb.2, or_self, if_false, List.take_succ_cons,
    List.take_zero, if_true, List.drop_succ_cons, List.drop_zero, db_state.nca_db_count,
    MAX_NCA_ENTRIES, strncpy_scan_token, deref_scan_token_ne_NUL]
  rw [hv2, hf1, hv1]

/-- The `[FUSE]` branch of the loop body on a line made of a text and its line
terminator, in terms of the fields of the text, when no accumulator wraps. -/
theorem load_database_line_fuse_form (s : db_state) (text eol rest : List Char)
    (hnul : NUL ∉ text) (hlast : ∀ c ∈ text.getLast?, is_eol c = false)
    (heol : ∀ c ∈ eol, is_eol c = true)
    (hpre : text.dropWhile isspace = '[' :: 'F' :: 'U' :: 'S' :: 'E' :: ']' :: rest)
    (hprod : dec_val (digit_field (after_field 31 rest)) < 2147483648)
    (hdev : dec_val (digit_field (after_digit_field (after_field 31 rest))) < 2147483648) :
    load_database_line s (text ++ eol) =
      if s.fuse_db.length ≥ 64 then s
      else if (first_field rest).take 31 ≠ [] ∧
          dec_val (digit_field (after_field 31 rest)) ≤ 255 ∧
          dec_val (digit_field (after_digit_field (after_field 31 rest))) ≤ 255 then
        { s with fuse_db := s.fuse_db ++
            [⟨(first_field rest).take 31, dec_val (digit_field (after_field 31 rest)),
              dec_val (digit_field (after_digit_field (after_field 31 rest)))⟩] }
      else s := by
  have hp := line_head text eol hnul hlast heol
  have hrest : NUL ∉ rest := by
    have h := no_NUL_dropWhile hnul isspace
    rw [hpre] at h
    intro hm
    exact h (by simp [hm])
  have hv1 := scan_token_field_fst 31 rest hrest
  have hv2 := scan_token_field_snd 31 rest hrest
  have hd1 := scan_digits_field (after_field 31 rest) hprod
  have hd2 := scan_digits_field (after_digit_field (after_field 31 rest)) hdev
  have hb : deref ('[' :: 'F' :: 'U' :: 'S' :: 'E' :: ']' :: rest) ≠ NUL ∧
      deref ('[' :: 'F' :: 'U' :: 'S' :: 'E' :: ']' :: rest) ≠ '#' := by
    constructor <;> (rw [deref_cons]; decide)
  have hne : ¬ (['[', 'F', 'U', 'S', 'E'] = ['[', 'N', 'C', 'A', ']']) := by decide
  simp only [load_database_line, hp, hpre, hb.1, hb.2, or_self, if_false, List.take_succ_cons,
    List.take_zero, hne, if_true, List.drop_succ_cons, List.drop_zero, db_state.fuse_db_count,
    MAX_FUSE_ENTRIES, strncpy_scan_token, deref_scan_token_ne_NUL]
  rw [hv2, hd1]
  simp only []
  rw [hd2, hv1]
  by_cases hc : s.fuse_db.length ≥ 64
  · simp only [hc, if_true]
  · simp only [hc, if_false]
    by_cases hl : (first_field rest).take 31 = []
    · simp [hl]
    · by_cases h1 : dec_val (digit_field (after_field 31 rest)) ≤ 255
      · by_cases h2 : dec_val (digit_field (after_digit_field (after_field 31 rest))) ≤ 255
        · have c1 : ((dec_val (digit_field (after_field 31 rest)) : Nat) : Int) ≤ 255 := by
            omega
          have c2 : ((dec_val (digit_field (after_digit_field (after_field 31 rest))) : Nat) :
              Int) ≤ 255 := by omega
          simp [hl, h1, h2, c1, c2, to_u8_of_le]
        · have c2 : ¬ ((dec_val (digit_field (after_digit_field (after_field 31 rest))) :
              Nat) : Int) ≤ 255 := by omega
          simp [h2, c2]
      · have c1 : ¬ ((dec_val (digit_field (after_field 31 rest)) : Nat) : Int) ≤ 255 := by
          omega
        simp [h1, c1]

theorem no_NUL_first_field {t : List Char} (h : NUL ∉ t) : NUL ∉ first_field t :=
  fun hm => no_NUL_dropWhile h isspace ((List.takeWhile_sublist _).subset hm)

theorem no_NUL_take {t : List Char} (h : NUL ∉ t) (n : Nat) : NUL ∉ t.take n :=
  fun hm => h (List.mem_of_mem_take hm)

theorem no_NUL_rest {text rest : List Char} (pre : List Char) (hnul : NUL ∉ text)
    (hpre : text.dropWhile isspace = pre ++ rest) : NUL ∉ rest := by
  have h := no_NUL_dropWhile hnul isspace
  rw [hpre] at h
  intro hm
  exact h (by simp [hm])

theorem nca_append_ne (s : db_state) (e : nca_entry_t) :
    ({ s with nca_db := s.nca_db ++ [e] } : db_state) ≠ s := by
  intro h
  have := congrArg (fun x => x.nca_db.length) h
  simp at this

theorem fuse_append_ne (s : db_state) (e : fuse_count_entry_t) :
    ({ s with fuse_db := s.fuse_db ++ [e] } : db_state) ≠ s := by
  intro h
  have := congrArg (fun x => x.fuse_db.length) h
  simp at this

/-- C8: for a line whose first non-whitespace text is `[NCA]`, followed by a
version field of at most 15 characters and a filename field of at most 63
characters, the loop body of `load_database` appends exactly the record
(version, filename), both fields unchanged, if and only if the NCA table holds
fewer than 256 records, both fields are non-empty, the filename ends with
`.nca` and `parse_version_string` accepts the version; in every other case the
state (both tables, hence both counts) is unchanged. -/
theorem load_database_line_nca_accept (s : db_state) (text eol rest : List Char)
    (hnul : NUL ∉ text) (hlast : ∀ c ∈ text.getLast?, is_eol c = false)
    (heol : ∀ c ∈ eol, is_eol c = true)
    (hpre : text.dropWhile isspace = '[' :: 'N' :: 'C' :: 'A' :: ']' :: rest)
    (hv : (first_field rest).length ≤ 15)
    (hf : (first_field (after_field 15 rest)).length ≤ 63) :
    (load_database_line s (text ++ eol) =
        { s with nca_db := s.nca_db ++
            [⟨first_field rest, first_field (after_field 15 rest)⟩] } ↔
      (s.nca_db_count < 256 ∧ first_field rest ≠ [] ∧
        first_field (after_field 15 rest) ≠ [] ∧
        (∃ stem, first_field (after_field 15 rest) = stem ++ ['.', 'n', 'c', 'a']) ∧
        parse_version_string (some (first_field rest)) ≠ none)) ∧
    (¬ (s.nca_db_count < 256 ∧ first_field rest ≠ [] ∧
        first_field (after_field 15 rest) ≠ [] ∧
        (∃ stem, first_field (after_field 15 rest) = stem ++ ['.', 'n', 'c', 'a']) ∧
        parse_version_string (some (first_field rest)) ≠ none) →
      load_database_line s (text ++ eol) = s) := by
  have hrest : NUL ∉ rest := no_NUL_rest ['[', 'N', 'C', 'A', ']'] hnul hpre
  have hform := load_database_line_nca_form s text eol rest hnul hlast heol hpre
  rw [List.take_of_length_le hv, List.take_of_length_le hf] at hform
  have hsuf := str_ends_with_iff (first_field (after_field 15 rest)) ['.', 'n', 'c', 'a']
    (no_NUL_first_field (no_NUL_after_field hrest 15)) (by decide)
  rw [db_state.nca_db_count]
  have hA : (s.nca_db.length < 256 ∧ first_field rest ≠ [] ∧
        first_field (after_field 15 rest) ≠ [] ∧
        (∃ stem, first_field (after_field 15 rest) = stem ++ ['.', 'n', 'c', 'a']) ∧
        parse_version_string (some (first_field rest)) ≠ none) →
      load_database_line s (text ++ eol) =
        { s with nca_db := s.nca_db ++
            [⟨first_field rest, first_field (after_field 15 rest)⟩] } := by
    rintro ⟨h1, h2, h3, h4, h5⟩
    rw [hform, if_neg (by omega), if_pos ⟨h2, h3, hsuf.2 h4⟩]
    cases hpv : parse_version_string (some (first_field rest)) with
    | none => exact absurd hpv h5
    | some v => rfl
  have hB : ¬ (s.nca_db.length < 256 ∧ first_field rest ≠ [] ∧
        first_field (after_field 15 rest) ≠ [] ∧
        (∃ stem, first_field (after_field 15 rest) = stem ++ ['.', 'n', 'c', 'a']) ∧
        parse_version_string (some (first_field rest)) ≠ none) →
      load_database_line s (text ++ eol) = s := by
    intro hn
    rw [hform]
    split_ifs with a b
    · rfl
    · cases hpv : parse_version_string (some (first_field rest)) with
      | none => rfl
      | some v =>
        exact absurd ⟨by omega, b.1, b.2.1, hsuf.1 b.2.2, by rw [hpv]; simp⟩ hn
    · rfl
  refine ⟨⟨fun h => ?_, hA⟩, hB⟩
  by_contra hn
  exact nca_append_ne _ _ (h.symm.trans (hB hn))

/-- C9 (as amended): for a line whose first non-whitespace text is `[NCA]`,
followed by a version field of at most 15 characters that
`parse_version_string` accepts and a filename field longer than 63 characters,
with the table not full, the loop body of `load_database` appends a record if
and only if the first 63 characters of the filename field themselves end with
`.nca`; the stored name is then exactly those 63 characters, and a string
comparison of it with the whole field fails. Otherwise the state is unchanged. -/
theorem load_database_line_nca_long_filename (s : db_state) (text eol rest : List Char)
    (hnul : NUL ∉ text) (hlast : ∀ c ∈ text.getLast?, is_eol c = false)
    (heol : ∀ c ∈ eol, is_eol c = true)
    (hpre : text.dropWhile isspace = '[' :: 'N' :: 'C' :: 'A' :: ']' :: rest)
    (hv : (first_field rest).length ≤ 15)
    (hparse : parse_version_string (some (first_field rest)) ≠ none)
    (hroom : s.nca_db_count < 256)
    (hf : 63 < (first_field (after_field 15 rest)).length) :
    (load_database_line s (text ++ eol) =
        { s with nca_db := s.nca_db ++
            [⟨first_field rest, (first_field (after_field 15 rest)).take 63⟩] } ↔
      ∃ stem, (first_field (after_field 15 rest)).take 63 = stem ++ ['.', 'n', 'c', 'a']) ∧
    ((¬ ∃ stem, (first_field (after_field 15 rest)).take 63 = stem ++ ['.', 'n', 'c', 'a']) →
      load_database_line s (text ++ eol) = s) ∧
    ((first_field (after_field 15 rest)).take 63).length = 63 ∧
    strcmp_eq (first_field (after_field 15 rest))
      ((first_field (after_field 15 rest)).take 63) = false := by
  have hrest : NUL ∉ rest := no_NUL_rest ['[', 'N', 'C', 'A', ']'] hnul hpre
  have hform := load_database_line_nca_form s text eol rest hnul hlast heol hpre
  rw [List.take_of_length_le hv] at hform
  have hfn : NUL ∉ first_field (after_field 15 rest) :=
    no_NUL_first_field (no_NUL_after_field hrest 15)
  have hsuf := str_ends_with_iff ((first_field (after_field 15 rest)).take 63)
    ['.', 'n', 'c', 'a'] (no_NUL_take hfn 63) (by decide)
  have hlen : ((first_field (after_field 15 rest)).take 63).length = 63 := by
    rw [List.length_take]; omega
  have hvne : first_field rest ≠ [] := by
    rintro h
    rw [h] at hparse
    exact hparse (by decide)
  have hfne : (first_field (after_field 15 rest)).take 63 ≠ [] := by
    intro h
    rw [h] at hlen
    simp at hlen
  have hc : ¬ s.nca_db.length ≥ 256 := by
    rw [db_state.nca_db_count] at hroom; omega
  have hA : (∃ stem,
        (first_field (after_field 15 rest)).take 63 = stem ++ ['.', 'n', 'c', 'a']) →
      load_database_line s (text ++ eol) =
        { s with nca_db := s.nca_db ++
            [⟨first_field rest, (first_field (after_field 15 rest)).take 63⟩] } := by
    intro h4
    rw [hform, if_neg hc, if_pos ⟨hvne, hfne, hsuf.2 h4⟩]
    cases hpv : parse_version_string (some (first_field rest)) with
    | none => exact absurd hpv hparse
    | some v => rfl
  have hB : (¬ ∃ stem,
        (first_field (after_field 15 rest)).take 63 = stem ++ ['.', 'n', 'c', 'a']) →
      load_database_line s (text ++ eol) = s := by
    intro hn
    rw [hform, if_neg hc, if_neg (fun b => hn (hsuf.1 b.2.2))]
  refine ⟨⟨fun h => ?_, hA⟩, hB, hlen, ?_⟩
  · by_contra hn
    exact nca_append_ne _ _ (h.symm.trans (hB hn))
  · unfold strcmp_eq
    rw [c_str_of_no_NUL hfn, c_str_of_no_NUL (no_NUL_take hfn 63)]
    simp only [beq_eq_false_iff_ne, ne_eq]
    intro h
    have := congrArg List.length h
    rw [hlen] at this
    omega

/-- C10 (as amended): for a line whose first non-whitespace text is `[FUSE]`,
with digit runs whose values stay below `2^31`, the loop body of
`load_database` appends a record if and only if the fuse table holds fewer than
64 records, the range field is non-empty and both counts are at most 255; the
record holds the first 31 characters of the range field and the two counts.
Otherwise the state is unchanged: the bounds check rejects every line with a
count above 255. -/
theorem load_database_line_fuse_accept (s : db_state) (text eol rest : List Char)
    (hnul : NUL ∉ text) (hlast : ∀ c ∈ text.getLast?, is_eol c = false)
    (heol : ∀ c ∈ eol, is_eol c = true)
    (hpre : text.dropWhile isspace = '[' :: 'F' :: 'U' :: 'S' :: 'E' :: ']' :: rest)
    (hprod : dec_val (digit_field (after_field 31 rest)) < 2147483648)
    (hdev : dec_val (digit_field (after_digit_field (after_field 31 rest))) < 2147483648) :
    (load_database_line s (text ++ eol) =
        { s with fuse_db := s.fuse_db ++
            [⟨(first_field rest).take 31, dec_val (digit_field (after_field 31 rest)),
              dec_val (digit_field (after_digit_field (after_field 31 rest)))⟩] } ↔
      (s.fuse_db_count < 64 ∧ first_field rest ≠ [] ∧
        dec_val (digit_field (after_field 31 rest)) ≤ 255 ∧
        dec_val (digit_field (after_digit_field (after_field 31 rest))) ≤ 255)) ∧
    (¬ (s.fuse_db_count < 64 ∧ first_field rest ≠ [] ∧
        dec_val (digit_field (after_field 31 rest)) ≤ 255 ∧
        dec_val (digit_field (after_digit_field (after_field 31 rest))) ≤ 255) →
      load_database_line s (text ++ eol) = s) := by
  have hform := load_database_line_fuse_form s text eol rest hnul hlast heol hpre hprod hdev
  have hne : (first_field rest).take 31 ≠ [] ↔ first_field rest ≠ [] := by
    cases first_field rest <;> simp
  rw [db_state.fuse_db_count]
  have hA : (s.fuse_db.length < 64 ∧ first_field rest ≠ [] ∧
        dec_val (digit_field (after_field 31 rest)) ≤ 255 ∧
        dec_val (digit_field (after_digit_field (after_field 31 rest))) ≤ 255) →
      load_database_line s (text ++ eol) =
        { s with fuse_db := s.fuse_db ++
            [⟨(first_field rest).take 31, dec_val (digit_field (after_field 31 rest)),
              dec_val (digit_field (after_digit_field (after_field 31 rest)))⟩] } := by
    rintro ⟨h1, h2, h3, h4⟩
    rw [hform, if_neg (by omega), if_pos ⟨hne.2 h2, h3, h4⟩]
  have hB : ¬ (s.fuse_db.length < 64 ∧ first_field rest ≠ [] ∧
        dec_val (digit_field (after_field 31 rest)) ≤ 255 ∧
        dec_val (digit_field (after_digit_field (after_field 31 rest))) ≤ 255) →
      load_database_line s (text ++ eol) = s := by
    intro hn
    rw [hform]
    split_ifs with a b
    · rfl
    · exact absurd ⟨by omega, hne.1 b.1, b.2.1, b.2.2⟩ hn
    · rfl
  refine ⟨⟨fun h => ?_, hA⟩, hB⟩
  by_contra hn
  exact fuse_append_ne _ _ (h.symm.trans (hB hn))

theorem load_database_line_nca_accept_witness :
    load_database_line db_init ("[NCA] 18.0.1 abc.nca".toList ++ ['\n']) =
      { db_init with nca_db := db_init.nca_db ++
          [⟨first_field " 18.0.1 abc.nca".toList,
            first_field (after_field 15 " 18.0.1 abc.nca".toList)⟩] } ∧
    first_field " 18.0.1 abc.nca".toList = "18.0.1".toList ∧
    first_field (after_field 15 " 18.0.1 abc.nca".toList) = "abc.nca".toList :=
  ⟨(load_database_line_nca_accept db_init "[NCA] 18.0.1 abc.nca".toList ['\n']
      " 18.0.1 abc.nca".toList (by decide) (by decide) (by decide) (by decide) (by decide)
      (by decide)).1.2 ⟨by decide, by decide, by decide, ⟨"abc".toList, by decide⟩, by decide⟩,
    by decide, by decide⟩

set_option maxRecDepth 100000 in
/-- C9 (counterexample): the line of the specification's example meets every
condition of the claim (the version parses, the filename field has 69
characters and ends with `.nca`, the table is empty) and yet it is rejected: no
record is appended, because the 63 characters kept of the name do not end with
`.nca`. -/
theorem long_nca_line_rejected :
    first_field (long_nca_line.drop 5) = "18.0.1".toList ∧
    parse_version_string (some "18.0.1".toList) ≠ none ∧
    first_field (after_field 15 (long_nca_line.drop 5)) = long_nca_name ∧
    63 < long_nca_name.length ∧
    long_nca_name.drop 65 = ['.', 'n', 'c', 'a'] ∧
    db_init.nca_db_count < 256 ∧
    load_database_line db_init long_nca_line = db_init ∧
    (load_database db_init (some [long_nca_line])).nca_db = [] := by
  decide

set_option maxRecDepth 100000 in
theorem load_database_line_nca_long_filename_witness :
    load_database_line db_init
        ("[NCA] 5.0 01234567890123456789012345678901234567890123456789012345678.nca.old".toList
          ++ ['\r', '\n']) =
      { db_init with nca_db := db_init.nca_db ++
          [⟨first_field
              " 5.0 01234567890123456789012345678901234567890123456789012345678.nca.old".toList,
            (first_field (after_field 15
              " 5.0 01234567890123456789012345678901234567890123456789012345678.nca.old".toList)).take
              63⟩] } ∧
    (first_field (after_field 15
      " 5.0 01234567890123456789012345678901234567890123456789012345678.nca.old".toList)).take 63 =
      "01234567890123456789012345678901234567890123456789012345678.nca".toList :=
  ⟨(load_database_line_nca_long_filename db_init
      "[NCA] 5.0 01234567890123456789012345678901234567890123456789012345678.nca.old".toList
      ['\r', '\n']
      " 5.0 01234567890123456789012345678901234567890123456789012345678.nca.old".toList
      (by decide) (by decide) (by decide) (by decide) (by decide) (by decide) (by decide)
      (by decide)).1.2
      ⟨"01234567890123456789012345678901234567890123456789012345678".toList, by decide⟩,
    by decide⟩

/-- C10 (counterexample): the line `[FUSE] 1.0.0 256 1` arrives at an empty fuse
table with a non-empty range field and digit runs far from overflow, and yet no
record is appended: the bounds check rejects the count 256. -/
theorem fuse_line_256_rejected :
    db_init.fuse_db_count < 64 ∧
    first_field (fuse_line_256.drop 6) = "1.0.0".toList ∧
    digit_field (after_field 31 (fuse_line_256.drop 6)) = "256".toList ∧
    dec_val "256".toList = 256 ∧
    load_database_line db_init fuse_line_256 = db_init ∧
    (load_database db_init (some [fuse_line_256])).fuse_db = [] := by
  decide

theorem load_database_line_fuse_accept_witness :
    load_database_line db_init ("  [FUSE] 1.0.0 1 2".toList ++ ['\r', '\n']) =
      { db_init with fuse_db := db_init.fuse_db ++
          [⟨(first_field " 1.0.0 1 2".toList).take 31,
            dec_val (digit_field (after_field 31 " 1.0.0 1 2".toList)),
            dec_val (digit_field (after_digit_field (after_field 31 " 1.0.0 1 2".toList)))⟩] } ∧
    (first_field " 1.0.0 1 2".toList).take 31 = "1.0.0".toList ∧
    dec_val (digit_field (after_field 31 " 1.0.0 1 2".toList)) = 1 ∧
    dec_val (digit_field (after_digit_field (after_field 31 " 1.0.0 1 2".toList))) = 2 :=
  ⟨(load_database_line_fuse_accept db_init "  [FUSE] 1.0.0 1 2".toList ['\r', '\n']
      " 1.0.0 1 2".toList (by decide) (by decide) (by decide) (by decide) (by decide)
      (by decide)).1.2 ⟨by decide, by decide, by decide, by decide⟩,
    by decide, by decide, by decide⟩

/-- The function `load_database` on a state not yet loaded runs the loop body
once more for a line added at the end of the file. -/
theorem load_database_append_line (s : db_state) (lines : List (List Char))
    (line : List Char) (h : s.database_loaded = false) :
    load_database s (some (lines ++ [line])) =
      load_database_line (load_database s (some lines)) line := by
  simp [load_database, h, List.foldl_append]

/-! ## Theorems: the NCA table of `load_database` and firmware detection -/

theorem nca_db_ok_append {db : List nca_entry_t} {e : nca_entry_t} (h : nca_db_ok db)
    (he : parse_version_string (some e.version) ≠ none ∧ NUL ∉ e.nca_filename ∧
      e.nca_filename ≠ []) : nca_db_ok (db ++ [e]) := by
  intro x hx
  rcases List.mem_append.1 hx with hx | hx
  · exact h x hx
  · simp only [List.mem_singleton] at hx
    subst hx
    exact he

theorem load_database_line_nca_db_ok (s : db_state) (line : List Char)
    (h : nca_db_ok s.nca_db) : nca_db_ok (load_database_line s line).nca_db := by
  unfold load_database_line
  simp only [strncpy_scan_token, deref_scan_token_ne_NUL]
  split_ifs with h1 h2 h3 h4 h5 h6 h7
  · exact h
  · exact h
  · split
    · rename_i v hv
      apply nca_db_ok_append h
      refine ⟨?_, scan_token_fst_no_NUL _ _, h4.2.1⟩
      simp only [hv]
      simp
    · exact h
  · exact h
  · exact h
  · exact h
  · exact h
  · exact h

theorem load_database_lines_nca_db_ok (lines : List (List Char)) (s : db_state)
    (h : nca_db_ok s.nca_db) : nca_db_ok (lines.foldl load_database_line s).nca_db := by
  induction lines generalizing s with
  | nil => exact h
  | cons l ls ih => exact ih _ (load_database_line_nca_db_ok s l h)

theorem load_database_nca_db_ok (file : Option (List (List Char))) :
    nca_db_ok (load_database db_init file).nca_db := by
  have h0 : nca_db_ok ([] : List nca_entry_t) := fun e he => absurd he (by simp)
  cases file with
  | none => exact h0
  | some lines =>
    exact load_database_lines_nca_db_ok lines ⟨[], [], true⟩ h0

theorem strcmp_eq_iff {a b : List Char} (ha : NUL ∉ a) (hb : NUL ∉ b) :
    strcmp_eq a b = true ↔ a = b := by
  simp [strcmp_eq, c_str_of_no_NUL ha, c_str_of_no_NUL hb]

theorem nca_db_lookup_none_iff (fname : List Char) (db : List nca_entry_t)
    (hok : nca_db_ok db) (hn : NUL ∉ fname) :
    nca_db_lookup fname db = none ↔ ∀ e ∈ db, e.nca_filename ≠ fname := by
  induction db with
  | nil => simp [nca_db_lookup]
  | cons e rest ih =>
    have hrest : nca_db_ok rest := fun x hx => hok x (by simp [hx])
    have he := hok e (by simp)
    have hs := strcmp_eq_iff hn he.2.1
    by_cases h : fname = e.nca_filename
    · have hs2 : strcmp_eq fname e.nca_filename = true := hs.2 h
      obtain ⟨v, hv⟩ := Option.ne_none_iff_exists'.1 he.1
      rw [nca_db_lookup, if_pos hs2, hv]
      constructor
      · intro x
        cases x
      · intro x
        exact absurd h.symm (x e (by simp))
    · have hs2 : ¬ strcmp_eq fname e.nca_filename = true := fun x => h (hs.1 x)
      rw [nca_db_lookup, if_neg hs2, ih hrest]
      simp only [List.mem_cons, forall_eq_or_imp]
      exact ⟨fun x => ⟨fun y => h y.symm, x⟩, fun x => x.2⟩

theorem nca_db_lookup_first (fname : List Char) (db : List nca_entry_t)
    (hok : nca_db_ok db) (hn : NUL ∉ fname) (hex : ∃ e ∈ db, e.nca_filename = fname) :
    ∃ dpre e dpost, db = dpre ++ e :: dpost ∧ e.nca_filename = fname ∧
      (∀ x ∈ dpre, x.nca_filename ≠ fname) ∧
      nca_db_lookup fname db = parse_version_string (some e.version) ∧
      parse_version_string (some e.version) ≠ none := by
  induction db with
  | nil => simp at hex
  | cons e rest ih =>
    have hrest : nca_db_ok rest := fun x hx => hok x (by simp [hx])
    have he := hok e (by simp)
    have hs := strcmp_eq_iff hn he.2.1
    by_cases h : fname = e.nca_filename
    · have hs2 : strcmp_eq fname e.nca_filename = true := hs.2 h
      obtain ⟨v, hv⟩ := Option.ne_none_iff_exists'.1 he.1
      refine ⟨[], e, rest, rfl, h.symm, by simp, ?_, he.1⟩
      rw [nca_db_lookup, if_pos hs2, hv]
    · have hs2 : ¬ strcmp_eq fname e.nca_filename = true := fun x => h (hs.1 x)
      have hex2 : ∃ x ∈ rest, x.nca_filename = fname := by
        obtain ⟨x, hx, hxe⟩ := hex
        rcases List.mem_cons.1 hx with hx | hx
        · subst hx; exact absurd hxe.symm h
        · exact ⟨x, hx, hxe⟩
      obtain ⟨dpre, x, dpost, hdb, hx, hpre, hl, hp⟩ := ih hrest hex2
      refine ⟨e :: dpre, x, dpost, by rw [hdb]; rfl, hx, ?_, ?_, hp⟩
      · intro y hy
        rcases List.mem_cons.1 hy with hy | hy
        · subst hy; exact fun z => h z.symm
        · exact hpre y hy
      · rw [nca_db_lookup, if_neg hs2]
        exact hl

theorem scan_registered_no_db (db : List nca_entry_t) (listing : List (List Char)) :
    scan_registered false db listing = none := by
  induction listing with
  | nil => rfl
  | cons n rest ih =>
    rw [scan_registered]
    by_cases hd : deref n = NUL
    · rw [if_pos hd]
    · rw [if_neg hd]
      simp only [Bool.false_eq_true, if_false]
      exact ih

theorem scan_registered_none_iff (db : List nca_entry_t) (listing : List (List Char))
    (hnames : ∀ n ∈ listing, n ≠ [] ∧ NUL ∉ n) :
    scan_registered true db listing = none ↔
      ∀ n ∈ listing, nca_db_lookup n db = none := by
  induction listing with
  | nil => simp [scan_registered]
  | cons n rest ih =>
    have hn := hnames n (by simp)
    have hd : deref n ≠ NUL := (deref_ne_NUL_iff hn.2).2 hn.1
    have ih2 := ih (fun m hm => hnames m (by simp [hm]))
    simp only [scan_registered, hd, if_false, if_true, List.mem_cons, forall_eq_or_imp]
    cases hl : nca_db_lookup n db with
    | none => simpa using ih2
    | some v => simp

theorem scan_registered_first (db : List nca_entry_t) (pre : List (List Char))
    (n : List Char) (post : List (List Char))
    (hpre : ∀ m ∈ pre, deref m ≠ NUL ∧ nca_db_lookup m db = none)
    (hn : deref n ≠ NUL) (hl : nca_db_lookup n db ≠ none) :
    scan_registered true db (pre ++ n :: post) = nca_db_lookup n db := by
  induction pre with
  | nil =>
    obtain ⟨v, hv⟩ := Option.ne_none_iff_exists'.1 hl
    simp [scan_registered, hn, hv]
  | cons m rest ih =>
    have hm := hpre m (by simp)
    have ih2 := ih (fun x hx => hpre x (by simp [hx]))
    simp only [List.cons_append, scan_registered, hm.1, if_false, if_true, hm.2]
    exact ih2

/-- C7: with every storage, key and mount step succeeding, a listing of
non-empty file names and the NCA table that `load_database` produces from the
start state, `detect_firmware_from_nca` reports not found if and only if no
listed name equals the `nca_filename` of a stored record (always so when the
table is empty, whatever the listing holds); otherwise, for the earliest listed name `n` that equals some
record's filename, it returns the parsed version of the first record, in
insertion order, whose filename is `n`, whatever names follow `n`. -/
theorem detect_firmware_from_nca_first_match (file : Option (List (List Char)))
    (env : bis_env)
    (hsteps : env.key_exists = true ∧ env.set_partition_ok = true ∧
      env.system_part_found = true ∧ env.mount_ok = true ∧ env.opendir_ok = true)
    (hnames : ∀ n ∈ env.listing, n ≠ [] ∧ NUL ∉ n) :
    ((detect_firmware_from_nca db_init file env).2 = none ↔
      ∀ n ∈ env.listing, ∀ e ∈ (load_database db_init file).nca_db, e.nca_filename ≠ n) ∧
    ((load_database db_init file).nca_db = [] →
      ∀ listing2, (detect_firmware_from_nca db_init file
        { env with listing := listing2 }).2 = none) ∧
    (∀ pre n post, env.listing = pre ++ n :: post →
      (∀ m ∈ pre, ∀ e ∈ (load_database db_init file).nca_db, e.nca_filename ≠ m) →
      (∃ e ∈ (load_database db_init file).nca_db, e.nca_filename = n) →
      ∃ dpre e dpost, (load_database db_init file).nca_db = dpre ++ e :: dpost ∧
        e.nca_filename = n ∧ (∀ x ∈ dpre, x.nca_filename ≠ n) ∧
        (detect_firmware_from_nca db_init file env).2 =
          parse_version_string (some e.version) ∧
        parse_version_string (some e.version) ≠ none ∧
        ∀ post2, (detect_firmware_from_nca db_init file
            { env with listing := pre ++ n :: post2 }).2 =
          parse_version_string (some e.version)) := by
  obtain ⟨k1, k2, k3, k4, k5⟩ := hsteps
  have hok := load_database_nca_db_ok file
  have hdet : ∀ l : List (List Char),
      (detect_firmware_from_nca db_init file { env with listing := l }).2 =
        scan_registered (decide ((load_database db_init file).nca_db_count > 0))
          (load_database db_init file).nca_db l := by
    intro l
    simp [detect_firmware_from_nca, k1, k2, k3, k4, k5]
  have hdet0 : (detect_firmware_from_nca db_init file env).2 =
        scan_registered (decide ((load_database db_init file).nca_db_count > 0))
          (load_database db_init file).nca_db env.listing := hdet env.listing
  have hempty : (load_database db_init file).nca_db = [] →
      ∀ listing2, (detect_firmware_from_nca db_init file
        { env with listing := listing2 }).2 = none := by
    intro hdb listing2
    rw [hdet listing2, db_state.nca_db_count, hdb]
    exact scan_registered_no_db _ _
  have huse : (load_database db_init file).nca_db ≠ [] →
      decide ((load_database db_init file).nca_db_count > 0) = true := by
    intro hdb
    rw [db_state.nca_db_count, decide_eq_true_eq]
    exact List.length_pos.2 hdb
  refine ⟨?_, hempty, ?_⟩
  · by_cases hdb : (load_database db_init file).nca_db = []
    · have h0 := hempty hdb env.listing
      rw [hdet] at h0
      rw [hdet0, h0, hdb]
      simp
    · rw [hdet0, huse hdb, scan_registered_none_iff _ _ hnames]
      constructor
      · intro h n hn
        exact (nca_db_lookup_none_iff n _ hok (hnames n hn).2).1 (h n hn)
      · intro h n hn
        exact (nca_db_lookup_none_iff n _ hok (hnames n hn).2).2 (h n hn)
  · intro pre n post hl hpre hex
    have hdb : (load_database db_init file).nca_db ≠ [] := by
      obtain ⟨e, he, _⟩ := hex
      exact List.ne_nil_of_mem he
    have hnn := hnames n (by rw [hl]; simp)
    obtain ⟨dpre, e, dpost, h1, h2, h3, h4, h5⟩ :=
      nca_db_lookup_first n _ hok hnn.2 hex
    have hpre2 : ∀ m ∈ pre, deref m ≠ NUL ∧
        nca_db_lookup m (load_database db_init file).nca_db = none := by
      intro m hm
      have hmn := hnames m (by rw [hl]; simp [hm])
      exact ⟨(deref_ne_NUL_iff hmn.2).2 hmn.1,
        (nca_db_lookup_none_iff m _ hok hmn.2).2 (hpre m hm)⟩
    have hscan : ∀ post2, scan_registered true (load_database db_init file).nca_db
        (pre ++ n :: post2) = parse_version_string (some e.version) := by
      intro post2
      rw [scan_registered_first _ pre n post2 hpre2 ((deref_ne_NUL_iff hnn.2).2 hnn.1)
        (by rw [h4]; exact h5), h4]
    refine ⟨dpre, e, dpost, h1, h2, h3, ?_, h5, ?_⟩
    · rw [hdet0, huse hdb, hl]
      exact hscan post
    · intro post2
      rw [hdet, huse hdb]
      exact hscan post2

set_option maxRecDepth 100000 in
theorem detect_firmware_from_nca_first_match_witness :
    (∀ n ∈ example_env.listing, n ≠ [] ∧ NUL ∉ n) ∧
    ((detect_firmware_from_nca db_init example_db_file example_env).2 = none ↔
      ∀ n ∈ example_env.listing, ∀ e ∈ (load_database db_init example_db_file).nca_db,
        e.nca_filename ≠ n) ∧
    (detect_firmware_from_nca db_init example_db_file example_env).2 = some (5, 0, 0) :=
  ⟨by decide,
    (detect_firmware_from_nca_first_match example_db_file example_env (by decide)
      (by decide)).1,
    by decide⟩

/-! ## Theorems: `get_burnt_fuses` -/

theorem shift_and_one_iff (x i : Nat) : (x >>> i) &&& 1 ≠ 0 ↔ x.testBit i = true := by
  simp [Nat.testBit, Nat.and_comm]

theorem count_odm_bits_eq (x : Nat) (n i cnt : Nat)
    (h : cnt + ((List.range' i n).filter (fun j => x.testBit j)).length < 256) :
    count_odm_bits x n i cnt =
      cnt + ((List.range' i n).filter (fun j => x.testBit j)).length := by
  induction n generalizing i cnt with
  | zero => simp [count_odm_bits]
  | succ k ih =>
    rw [List.range'_succ] at h ⊢
    by_cases hb : x.testBit i = true
    · have hc : (x >>> i) &&& 1 ≠ 0 := (shift_and_one_iff x i).2 hb
      rw [List.filter_cons_of_pos (by simpa using hb), List.length_cons] at h ⊢
      rw [count_odm_bits, if_pos hc, Nat.mod_eq_of_lt (by omega), ih (i + 1) (cnt + 1) (by omega)]
      omega
    · have hc : ¬ ((x >>> i) &&& 1 ≠ 0) := fun a => hb ((shift_and_one_iff x i).1 a)
      rw [List.filter_cons_of_neg (by simpa using hb)] at h ⊢
      rw [count_odm_bits, if_neg hc, ih (i + 1) cnt h]

theorem popcount_le (x : Nat) : popcount x ≤ 32 := by
  unfold popcount
  exact le_trans (List.length_filter_le _ _) (by simp)

theorem testBit_lt_32 (x : Nat) (hx : x < 4294967296) (i : Nat) (hi : x.testBit i = true) :
    i < 32 := by
  by_contra hge
  have hlt : x < 2 ^ i :=
    lt_of_lt_of_le hx (by
      have : (4294967296 : Nat) = 2 ^ 32 := by norm_num
      rw [this]
      exact Nat.pow_le_pow_right (by norm_num) (by omega))
  rw [Nat.testBit_lt_two_pow hlt] at hi
  exact Bool.false_ne_true hi

theorem popcount_eq_zero_iff (x : Nat) (hx : x < 4294967296) : popcount x = 0 ↔ x = 0 := by
  constructor
  · intro h
    unfold popcount at h
    rw [List.length_eq_zero, List.filter_eq_nil_iff] at h
    apply Nat.eq_of_testBit_eq
    intro i
    rw [Nat.zero_testBit]
    by_cases hi : i < 32
    · have := h i (List.mem_range.2 hi)
      simpa using this
    · by_contra hne
      exact hi (testBit_lt_32 x hx i (by simpa using hne))
  · rintro rfl
    decide

theorem count_bits_eq_digits_sum (n : Nat) :
    ∀ x : Nat, x < 2 ^ n →
      ((List.range n).filter (fun i => x.testBit i)).length = (Nat.digits 2 x).sum := by
  induction n with
  | zero =>
    intro x hx
    have : x = 0 := by simpa using hx
    subst this
    simp
  | succ k ih =>
    intro x hx
    have hhalf : x / 2 < 2 ^ k := by
      rw [Nat.div_lt_iff_lt_mul (by norm_num)]
      rw [pow_succ] at hx
      exact hx
    rw [List.range_succ_eq_map, List.filter_cons, List.filter_map]
    have hfun : ((fun i => x.testBit i) ∘ Nat.succ) = fun i => (x / 2).testBit i := by
      funext i
      simp [Nat.testBit_succ]
    rw [hfun]
    by_cases h0 : x = 0
    · subst h0
      simp
    · rw [Nat.digits_def' (by norm_num) (Nat.pos_of_ne_zero h0), List.sum_cons, ← ih _ hhalf]
      rcases Nat.mod_two_eq_zero_or_one x with hm | hm
      · simp [Nat.testBit_zero, hm]
      · simp [Nat.testBit_zero, hm]
        omega

/-- C14: for 32-bit values `odm6` and `odm7`, `get_burnt_fuses` returns
`popcount odm6 + popcount odm7`, where the population count is the number of
set bits (every set bit lies in positions `0 .. 31`, and the count is the sum of
the binary digits); the result is at most 64, so the `u8` counter never wraps,
and it is 0 if and only if both registers are 0. -/
theorem get_burnt_fuses_popcount (odm6 odm7 : Nat)
    (h6 : odm6 < 4294967296) (h7 : odm7 < 4294967296) :
    get_burnt_fuses odm6 odm7 = popcount odm6 + popcount odm7 ∧
    (∀ i, odm6.testBit i = true → i < 32) ∧ (∀ i, odm7.testBit i = true → i < 32) ∧
    popcount odm6 = (Nat.digits 2 odm6).sum ∧ popcount odm7 = (Nat.digits 2 odm7).sum ∧
    get_burnt_fuses odm6 odm7 ≤ 64 ∧
    (get_burnt_fuses odm6 odm7 = 0 ↔ odm6 = 0 ∧ odm7 = 0) := by
  have e6 : count_odm_bits odm6 32 0 0 = popcount odm6 := by
    have h := count_odm_bits_eq odm6 32 0 0
    rw [← List.range_eq_range'] at h
    have hl := popcount_le odm6
    unfold popcount at hl ⊢
    rw [h (by omega)]
    omega
  have e7 : count_odm_bits odm7 32 0 (popcount odm6) = popcount odm6 + popcount odm7 := by
    have h := count_odm_bits_eq odm7 32 0 (popcount odm6)
    rw [← List.range_eq_range'] at h
    have hl6 := popcount_le odm6
    have hl := popcount_le odm7
    unfold popcount at hl h ⊢
    unfold popcount at hl6
    rw [h (by omega)]
  have hget : get_burnt_fuses odm6 odm7 = popcount odm6 + popcount odm7 := by
    rw [get_burnt_fuses, e6, e7]
  refine ⟨hget, testBit_lt_32 odm6 h6, testBit_lt_32 odm7 h7,
    count_bits_eq_digits_sum 32 odm6 h6, count_bits_eq_digits_sum 32 odm7 h7, ?_, ?_⟩
  · rw [hget]
    have := popcount_le odm6
    have := popcount_le odm7
    omega
  · rw [hget, Nat.add_eq_zero_iff, popcount_eq_zero_iff odm6 h6, popcount_eq_zero_iff odm7 h7]

theorem get_burnt_fuses_popcount_witness :
    get_burnt_fuses 4294967295 5 = popcount 4294967295 + popcount 5 ∧
    popcount 4294967295 = 32 ∧ popcount 5 = 2 ∧ get_burnt_fuses 4294967295 5 = 34 :=
  ⟨(get_burnt_fuses_popcount 4294967295 5 (by decide) (by decide)).1, by decide, by decide,
    by decide⟩


/-! ## Theorems: narrowing in `parse_version_string` -/

theorem parse_version_string_none_iff_head (s : List Char) :
    parse_version_string (some s) = none ↔ (s.dropWhile is_digit).head? ≠ some '.' := by
  rw [← deref_ne_dot_iff, ← scan_digits_snd 0 s]
  by_cases h : deref (scan_digits 0 s).2 = '.'
  · simp [parse_version_string, h]
  · simp [parse_version_string, h]

/-- Every string that `parse_version_string` accepts has one of the two shapes
of the theorems on its value. -/
theorem parse_version_string_shape (s : List Char)
    (h : parse_version_string (some s) ≠ none) :
    ∃ a b : List Char, (∀ x ∈ a, is_digit x = true) ∧ (∀ x ∈ b, is_digit x = true) ∧
      ((∃ c r : List Char, (∀ x ∈ c, is_digit x = true) ∧
          (∀ x ∈ r.head?, is_digit x = false) ∧ s = a ++ '.' :: (b ++ '.' :: (c ++ r))) ∨
        (∃ r2 : List Char, (∀ x ∈ r2.head?, is_digit x = false ∧ x ≠ '.') ∧
          s = a ++ '.' :: (b ++ r2))) := by
  have hd : ∀ (t : List Char), ∀ x ∈ (t.dropWhile is_digit).head?, is_digit x = false := by
    intro t x hx
    cases hdw : t.dropWhile is_digit with
    | nil => rw [hdw] at hx; simp at hx
    | cons c cs =>
      rw [hdw] at hx
      simp only [List.head?_cons, Option.mem_def, Option.some.injEq] at hx
      subst hx
      have := List.head_dropWhile_not is_digit t (by rw [hdw]; simp)
      simpa [hdw] using this
  have htw : ∀ (t : List Char), ∀ x ∈ t.takeWhile is_digit, is_digit x = true :=
    fun t x hx => List.mem_takeWhile_imp hx
  have h1 : (s.dropWhile is_digit).head? = some '.' := by
    by_contra hne
    exact h ((parse_version_string_none_iff_head s).2 hne)
  cases hs : s.dropWhile is_digit with
  | nil => rw [hs] at h1; simp at h1
  | cons d t =>
    rw [hs] at h1
    simp only [List.head?_cons, Option.some.injEq] at h1
    subst h1
    have es : s = s.takeWhile is_digit ++ '.' :: t := by
      rw [← hs, List.takeWhile_append_dropWhile]
    have et : t = t.takeWhile is_digit ++ t.dropWhile is_digit :=
      (List.takeWhile_append_dropWhile is_digit t).symm
    refine ⟨s.takeWhile is_digit, t.takeWhile is_digit, htw s, htw t, ?_⟩
    cases ht : t.dropWhile is_digit with
    | nil =>
      right
      refine ⟨[], by simp, ?_⟩
      rw [List.append_nil]
      rw [ht, List.append_nil] at et
      rw [← et]
      exact es
    | cons d2 u =>
      by_cases hdot : d2 = '.'
      · subst hdot
        left
        refine ⟨u.takeWhile is_digit, u.dropWhile is_digit, htw u, hd u, ?_⟩
        rw [List.takeWhile_append_dropWhile, ← ht, ← et]
        exact es
      · right
        refine ⟨d2 :: u, ?_, ?_⟩
        · intro x hx
          simp only [List.head?_cons, Option.mem_def, Option.some.injEq] at hx
          rw [← hx]
          exact ⟨hd t d2 (by rw [ht]; simp), hdot⟩
        · rw [← ht, ← et]
          exact es

/-- C15: `parse_version_string` narrows by truncation: for digit runs `a`, `b`,
`c` of decimal value below `2^31`, `a.b.c` (followed by nothing or a non-digit)
parses to the three values modulo 256, and `a.b` (followed by nothing or a
character that is neither a digit nor `.`) to the two values modulo 256 and 0;
`256.300.511` gives `(0, 44, 255)`, and `256.0` gives what `0.0` gives, where
saturation would give 255. -/
theorem parse_version_string_truncates (a b c r r2 : List Char)
    (ha : ∀ x ∈ a, is_digit x = true) (hb : ∀ x ∈ b, is_digit x = true)
    (hc : ∀ x ∈ c, is_digit x = true)
    (hva : dec_val a < 2147483648) (hvb : dec_val b < 2147483648)
    (hvc : dec_val c < 2147483648)
    (hr : ∀ x ∈ r.head?, is_digit x = false)
    (hr2 : ∀ x ∈ r2.head?, is_digit x = false ∧ x ≠ '.') :
    parse_version_string (some (a ++ '.' :: (b ++ '.' :: (c ++ r)))) =
      some (dec_val a % 256, dec_val b % 256, dec_val c % 256) ∧
    parse_version_string (some (a ++ '.' :: (b ++ r2))) =
      some (dec_val a % 256, dec_val b % 256, 0) ∧
    parse_version_string (some "256.300.511".toList) = some (0, 44, 255) ∧
    parse_version_string (some "256.0".toList) = parse_version_string (some "0.0".toList) ∧
    dec_val "256".toList = 256 ∧ min (dec_val "256".toList) 255 ≠ 0 := by
  have hdot : ∀ t : List Char, ∀ x ∈ ('.' :: t).head?, is_digit x = false := by
    intro t x hx
    simp only [List.head?_cons, Option.mem_def, Option.some.injEq] at hx
    subst hx
    decide
  refine ⟨?_, ?_, by decide, by decide, by decide, by decide⟩
  · have e1 := scan_digits_dec_val a ('.' :: (b ++ '.' :: (c ++ r))) ha (hdot _) hva
    have e2 := scan_digits_dec_val b ('.' :: (c ++ r)) hb (hdot _) hvb
    have e3 := scan_digits_dec_val c r hc hr hvc
    simp [parse_version_string, e1, e2, e3, deref_cons, to_u8_natCast]
  · have e1 := scan_digits_dec_val a ('.' :: (b ++ r2)) ha (hdot _) hva
    have e2 := scan_digits_dec_val b r2 hb (fun x hx => (hr2 x hx).1) hvb
    have hnd : deref r2 ≠ '.' := by
      cases r2 with
      | nil => simp [deref]; decide
      | cons x t => simpa [deref] using (hr2 x (by simp)).2
    have z : to_u8 0 = 0 := by decide
    simp [parse_version_string, e1, e2, deref_cons, hnd, to_u8_natCast, z]

theorem parse_version_string_truncates_witness :
    parse_version_string (some ("256".toList ++ '.' :: ("300".toList ++ '.' ::
        ("511".toList ++ "-rc".toList)))) =
      some (dec_val "256".toList % 256, dec_val "300".toList % 256,
        dec_val "511".toList % 256) ∧
    dec_val "300".toList % 256 = 44 :=
  ⟨(parse_version_string_truncates "256".toList "300".toList "511".toList "-rc".toList []
      (by decide) (by decide) (by decide) (by decide) (by decide) (by decide)
      (by decide) (by decide)).1, by decide⟩


/-! ## Theorems: the one-shot flag of `load_database` -/

theorem load_database_line_loaded (s : db_state) (line : List Char) :
    (load_database_line s line).database_loaded = s.database_loaded := by
  unfold load_database_line
  simp only []
  split_ifs
  · rfl
  · rfl
  · split <;> rfl
  · rfl
  · rfl
  · rfl
  · rfl
  · rfl

theorem load_database_lines_loaded (lines : List (List Char)) (s : db_state) :
    (lines.foldl load_database_line s).database_loaded = s.database_loaded := by
  induction lines generalizing s with
  | nil => rfl
  | cons l ls ih => rw [List.foldl_cons, ih, load_database_line_loaded]

theorem load_database_loaded (s : db_state) (file : Option (List (List Char))) :
    (load_database s file).database_loaded = true := by
  unfold load_database
  by_cases h : s.database_loaded = true
  · simp [h]
  · cases file with
    | none => simp [h]
    | some lines => simp [h, load_database_lines_loaded]

/-- C12: `load_database` is idempotent on the store (both tables, hence both
counts, and the flag): for every state, every first file and every second
file, absent or not, a second call leaves what the first call left; once the
flag is set no call changes the state, and every call leaves the flag set. -/
theorem load_database_idempotent :
    (∀ (s : db_state) (file file2 : Option (List (List Char))),
      load_database (load_database s file) file2 = load_database s file) ∧
    (∀ (s : db_state) (file : Option (List (List Char))),
      s.database_loaded = true → load_database s file = s) ∧
    (∀ (s : db_state) (file : Option (List (List Char))),
      (load_database s file).database_loaded = true) := by
  have h2 : ∀ (s : db_state) (file : Option (List (List Char))),
      s.database_loaded = true → load_database s file = s := by
    intro s file h
    simp [load_database, h]
  exact ⟨fun s file file2 => h2 _ file2 (load_database_loaded s file), h2,
    load_database_loaded⟩

theorem load_database_idempotent_witness :
    (load_database db_init example_db_file).database_loaded = true ∧
    load_database (load_database db_init example_db_file) (some two_fuse_lines) =
      load_database db_init example_db_file :=
  ⟨by decide,
    load_database_idempotent.2.1 (load_database db_init example_db_file)
      (some two_fuse_lines) (by decide)⟩


/-! ## Theorems: the tables after a whole file -/

theorem to_u8_lt (x : Int) : to_u8 x < 256 := by
  unfold to_u8
  omega

/-- One run of the loop body either leaves the state as it is, or appends one
fitting record to `nca_db` at an index below its capacity, or appends one
fitting record to `fuse_db` at an index below its capacity. -/
theorem load_database_line_shape (s : db_state) (line : List Char) :
    load_database_line s line = s ∨
    (s.nca_db_count < MAX_NCA_ENTRIES ∧ ∃ e, nca_entry_fits e ∧
      load_database_line s line = { s with nca_db := s.nca_db ++ [e] }) ∨
    (s.fuse_db_count < MAX_FUSE_ENTRIES ∧ ∃ e, fuse_entry_fits e ∧
      load_database_line s line = { s with fuse_db := s.fuse_db ++ [e] }) := by
  unfold load_database_line
  simp only [strncpy_scan_token]
  split_ifs with h1 h2 h3 h4 h5 h6 h7
  · exact Or.inl rfl
  · exact Or.inl rfl
  · split
    · right; left
      exact ⟨by omega, _, ⟨scan_token_fst_length _ _, scan_token_fst_no_NUL _ _,
        scan_token_fst_length _ _, scan_token_fst_no_NUL _ _⟩, rfl⟩
    · exact Or.inl rfl
  · exact Or.inl rfl
  · exact Or.inl rfl
  · right; right
    exact ⟨by omega, _, ⟨scan_token_fst_length _ _, scan_token_fst_no_NUL _ _,
      to_u8_lt _, to_u8_lt _⟩, rfl⟩
  · exact Or.inl rfl
  · exact Or.inl rfl

theorem load_database_line_fuse_db (s : db_state) (line : List Char) :
    (load_database_line s line).fuse_db =
      if s.fuse_db.length < 64 then s.fuse_db ++ (fuse_line_record line).toList
      else s.fuse_db := by
  unfold fuse_line_record load_database_line
  simp only [db_init, db_state.nca_db_count, db_state.fuse_db_count, MAX_NCA_ENTRIES,
    MAX_FUSE_ENTRIES, List.length_nil, List.nil_append]
  split_ifs <;> first | rfl | omega | (simp; done) | (split <;> simp)

theorem load_database_lines_fuse_db (lines : List (List Char)) (s : db_state) :
    (lines.foldl load_database_line s).fuse_db =
      s.fuse_db ++ (lines.filterMap fuse_line_record).take (64 - s.fuse_db.length) := by
  induction lines generalizing s with
  | nil => simp
  | cons l ls ih =>
    rw [List.foldl_cons, ih, load_database_line_fuse_db]
    by_cases hlt : s.fuse_db.length < 64
    · rw [if_pos hlt]
      cases hr : fuse_line_record l with
      | none => simp [List.filterMap_cons, hr]
      | some r =>
        have h64 : 64 - s.fuse_db.length = (64 - (s.fuse_db.length + 1)) + 1 := by omega
        simp only [Option.toList, List.filterMap_cons, hr, List.length_append,
          List.length_singleton, List.append_assoc, List.singleton_append]
        rw [h64, List.take_succ_cons]
    · rw [if_neg hlt]
      have h0 : 64 - s.fuse_db.length = 0 := by omega
      rw [h0, List.take_zero, List.take_zero]

theorem load_database_line_skip (s : db_state) (line : List Char)
    (h : skip_space (strip_newline line) = [] ∨
      (skip_space (strip_newline line)).head? = some '#' ∨
      ((skip_space (strip_newline line)).take 5 ≠ ['[', 'N', 'C', 'A', ']'] ∧
        (skip_space (strip_newline line)).take 6 ≠ ['[', 'F', 'U', 'S', 'E', ']'])) :
    load_database_line s line = s := by
  unfold load_database_line
  simp only []
  rcases h with h | h | h
  · rw [h]
    simp [deref]
  · have hd : deref (skip_space (strip_newline line)) = '#' := by
      cases hp : skip_space (strip_newline line) with
      | nil => rw [hp] at h; simp at h
      | cons c cs => rw [hp] at h; simpa [deref] using h
    simp [hd]
  · rw [if_neg h.1, if_neg h.2]
    split_ifs <;> rfl

theorem fuse_line_record_fields (text eol rest : List Char)
    (hnul : NUL ∉ text) (hlast : ∀ c ∈ text.getLast?, is_eol c = false)
    (heol : ∀ c ∈ eol, is_eol c = true)
    (hpre : text.dropWhile isspace = '[' :: 'F' :: 'U' :: 'S' :: 'E' :: ']' :: rest)
    (hprod : dec_val (digit_field (after_field 31 rest)) < 2147483648)
    (hdev : dec_val (digit_field (after_digit_field (after_field 31 rest))) < 2147483648) :
    fuse_line_record (text ++ eol) =
      if (first_field rest).take 31 ≠ [] ∧
          dec_val (digit_field (after_field 31 rest)) ≤ 255 ∧
          dec_val (digit_field (after_digit_field (after_field 31 rest))) ≤ 255 then
        some ⟨(first_field rest).take 31, dec_val (digit_field (after_field 31 rest)),
          dec_val (digit_field (after_digit_field (after_field 31 rest)))⟩
      else none := by
  rw [fuse_line_record,
    load_database_line_fuse_form db_init text eol rest hnul hlast heol hpre hprod hdev]
  have h0 : ¬ db_init.fuse_db.length ≥ 64 := by decide
  rw [if_neg h0]
  split_ifs <;> rfl

/-- C11: for every database file, the fuse table after `load_database` is the
sequence of the records of the accepted `[FUSE]` lines, in file order, cut off
after the first 64: each line contributes at most its own record, which depends
on that line alone. A line that is blank, starts with `#` or carries an unknown
tag leaves the state as it is, and an `[NCA]` line leaves the fuse table as it
is. The record of an accepted line holds the first 31 characters of its range
field and its two counts. The lines `[FUSE] 1.0.0 1 1` and `[FUSE] 1.0.0 2 2`
give the two records `(1.0.0, 1, 1)` and `(1.0.0, 2, 2)` in that order. -/
theorem load_database_fuse_db_file_order :
    (∀ lines : List (List Char),
      (load_database db_init (some lines)).fuse_db =
        (lines.filterMap fuse_line_record).take 64) ∧
    (load_database db_init none).fuse_db = [] ∧
    (∀ (s : db_state) (line : List Char),
      (skip_space (strip_newline line) = [] ∨
        (skip_space (strip_newline line)).head? = some '#' ∨
        ((skip_space (strip_newline line)).take 5 ≠ ['[', 'N', 'C', 'A', ']'] ∧
          (skip_space (strip_newline line)).take 6 ≠ ['[', 'F', 'U', 'S', 'E', ']'])) →
      load_database_line s line = s ∧ fuse_line_record line = none) ∧
    (∀ (s : db_state) (line : List Char),
      (skip_space (strip_newline line)).take 5 = ['[', 'N', 'C', 'A', ']'] →
      (load_database_line s line).fuse_db = s.fuse_db ∧ fuse_line_record line = none) ∧
    (∀ text eol rest : List Char, NUL ∉ text → (∀ c ∈ text.getLast?, is_eol c = false) →
      (∀ c ∈ eol, is_eol c = true) →
      text.dropWhile isspace = '[' :: 'F' :: 'U' :: 'S' :: 'E' :: ']' :: rest →
      dec_val (digit_field (after_field 31 rest)) < 2147483648 →
      dec_val (digit_field (after_digit_field (after_field 31 rest))) < 2147483648 →
      fuse_line_record (text ++ eol) =
        if (first_field rest).take 31 ≠ [] ∧
            dec_val (digit_field (after_field 31 rest)) ≤ 255 ∧
            dec_val (digit_field (after_digit_field (after_field 31 rest))) ≤ 255 then
          some ⟨(first_field rest).take 31, dec_val (digit_field (after_field 31 rest)),
            dec_val (digit_field (after_digit_field (after_field 31 rest)))⟩
        else none) ∧
    (load_database db_init (some two_fuse_lines)).fuse_db =
      [⟨"1.0.0".toList, 1, 1⟩, ⟨"1.0.0".toList, 2, 2⟩] := by
  refine ⟨?_, rfl, ?_, ?_, fuse_line_record_fields, by decide⟩
  · intro lines
    have h := load_database_lines_fuse_db lines ⟨[], [], true⟩
    simpa [load_database, db_init] using h
  · intro s line h
    refine ⟨load_database_line_skip s line h, ?_⟩
    rw [fuse_line_record, load_database_line_skip db_init line h]
    rfl
  · intro s line h
    have hne : ∀ st : db_state, (load_database_line st line).fuse_db = st.fuse_db := by
      intro st
      unfold load_database_line
      simp only [h, if_true]
      split_ifs <;> first | rfl | (split <;> rfl)
    refine ⟨hne s, ?_⟩
    rw [fuse_line_record, hne db_init]
    rfl

theorem load_database_fuse_db_file_order_witness :
    (skip_space (strip_newline ("# prod dev".toList ++ ['\n']))).head? = some '#' ∧
    load_database_line (load_database db_init (some two_fuse_lines))
        ("# prod dev".toList ++ ['\n']) =
      load_database db_init (some two_fuse_lines) ∧
    (load_database db_init (some two_fuse_lines)).fuse_db_count = 2 :=
  ⟨by decide,
    (load_database_fuse_db_file_order.2.2.1 (load_database db_init (some two_fuse_lines))
      ("# prod dev".toList ++ ['\n']) (Or.inr (Or.inl (by decide)))).1,
    by decide⟩

theorem scan_token_append (n : Nat) (p : List Char) :
    (scan_token n p).1 ++ (scan_token n p).2 = p := by
  induction n generalizing p with
  | zero => simp [scan_token]
  | succ k ih =>
    cases p with
    | nil => simp [scan_token]
    | cons c cs =>
      simp only [scan_token]
      split_ifs
      · simpa using ih cs
      · simp

theorem db_fits_step (s : db_state) (line : List Char) (h : db_fits s) :
    db_fits (load_database_line s line) := by
  obtain ⟨h1, h2, h3, h4⟩ := h
  rcases load_database_line_shape s line with he | ⟨hlt, e, hfit, he⟩ | ⟨hlt, e, hfit, he⟩
  · rw [he]
    exact ⟨h1, h2, h3, h4⟩
  · rw [he]
    simp only [db_state.nca_db_count, db_state.fuse_db_count] at h1 h2 hlt
    refine ⟨?_, h2, ?_, h4⟩
    · simp only [db_state.nca_db_count, List.length_append, List.length_singleton]
      omega
    · intro x hx
      rcases List.mem_append.1 hx with hx | hx
      · exact h3 x hx
      · simp only [List.mem_singleton] at hx
        rw [hx]
        exact hfit
  · rw [he]
    simp only [db_state.nca_db_count, db_state.fuse_db_count] at h1 h2 hlt
    refine ⟨h1, ?_, h3, ?_⟩
    · simp only [db_state.fuse_db_count, List.length_append, List.length_singleton]
      omega
    · intro x hx
      rcases List.mem_append.1 hx with hx | hx
      · exact h4 x hx
      · simp only [List.mem_singleton] at hx
        rw [hx]
        exact hfit

theorem db_fits_lines (lines : List (List Char)) (s : db_state) (h : db_fits s) :
    db_fits (lines.foldl load_database_line s) := by
  induction lines generalizing s with
  | nil => exact h
  | cons l ls ih => exact ih _ (db_fits_step s l h)

theorem db_fits_load (s : db_state) (file : Option (List (List Char))) (h : db_fits s) :
    db_fits (load_database s file) := by
  unfold load_database
  by_cases hl : s.database_loaded = true
  · simpa [hl] using h
  · have h1 : db_fits { s with database_loaded := true } := h
    cases file with
    | none => simpa [hl] using h1
    | some lines => simpa [hl] using db_fits_lines lines _ h1

theorem db_fits_init : db_fits db_init :=
  ⟨by decide, by decide, fun e he => absurd he (by simp [db_init]),
    fun e he => absurd he (by simp [db_init])⟩

/-- C13: for every sequence of line buffers, of any content and length,
`load_database` keeps the state within its arrays: the NCA count is at most 256
and the fuse count at most 64, and every stored string is free of terminators
and has at most 15 (`version`), 63 (`nca_filename`) or 31 (`version_range`)
characters. Each run of the loop body leaves the state as it is or appends one
record at an index below the capacity, so earlier records never change and a
line that arrives at a full table is dropped; a token loop with room for `n`
characters stores at most the first `n` and leaves the rest unread. -/
theorem load_database_within_bounds (s : db_state) (file : Option (List (List Char)))
    (h : db_fits s) :
    db_fits (load_database s file) ∧
    db_fits (load_database db_init file) ∧
    (∀ (t : db_state) (line : List Char),
      load_database_line t line = t ∨
      (t.nca_db_count < MAX_NCA_ENTRIES ∧ ∃ e, nca_entry_fits e ∧
        load_database_line t line = { t with nca_db := t.nca_db ++ [e] }) ∨
      (t.fuse_db_count < MAX_FUSE_ENTRIES ∧ ∃ e, fuse_entry_fits e ∧
        load_database_line t line = { t with fuse_db := t.fuse_db ++ [e] })) ∧
    (∀ (t : db_state) (line : List Char), MAX_NCA_ENTRIES ≤ t.nca_db_count →
      (load_database_line t line).nca_db = t.nca_db) ∧
    (∀ (t : db_state) (line : List Char), MAX_FUSE_ENTRIES ≤ t.fuse_db_count →
      (load_database_line t line).fuse_db = t.fuse_db) ∧
    (∀ (n : Nat) (p : List Char),
      (scan_token n p).1.length ≤ n ∧ (scan_token n p).1 ++ (scan_token n p).2 = p) := by
  refine ⟨db_fits_load s file h, db_fits_load db_init file db_fits_init,
    load_database_line_shape, ?_, ?_, fun n p => ⟨scan_token_fst_length n p,
      scan_token_append n p⟩⟩
  · intro t line hfull
    rcases load_database_line_shape t line with he | ⟨hlt, _⟩ | ⟨_, e, _, he⟩
    · rw [he]
    · omega
    · rw [he]
  · intro t line hfull
    rcases load_database_line_shape t line with he | ⟨_, e, _, he⟩ | ⟨hlt, _⟩
    · rw [he]
    · rw [he]
    · omega

theorem load_database_within_bounds_witness :
    db_fits db_init ∧ db_fits (load_database db_init example_db_file) ∧
    (load_database db_init example_db_file).nca_db_count = 2 :=
  ⟨db_fits_init, (load_database_within_bounds db_init example_db_file db_fits_init).1,
    by decide⟩

end FuseCheck
